import Mathlib

/-!
Verification of the Articles tracker (src/main.py): a record store mapping
calendar dates to per-diary article counts, loaded from and saved to a flat
comma-separated text file, together with descriptive statistics (weekday
averages, coefficient of variation, interquartile range, mode) used to flag
anomalous counts.

Modelling conventions:
* Python `datetime.date` becomes `PyDate` (year/month/day as naturals) with
  ordinal conversion following CPython's `_ymd2ord`/`_ord2ymd` (proleptic
  Gregorian calendar); `date - timedelta(days=i)` becomes `PyDate.subDays`.
  The model is total (Python raises OverflowError outside ordinals
  1..3652059; all claims concern in-range dates).
* Text is `List Char`; a file's content is one `List Char`, `none` standing
  for a missing file.  Python's text-mode universal-newline translation
  (`"\r\n"`/`"\r"` to `"\n"`) is modelled by `translateNewlines`.
* The global `historical_data` defaultdict becomes `Store`, an
  insertion-ordered association list (Python dicts preserve insertion
  order); item assignment becomes `upsertStore`.
* Python floats are idealised as exact arithmetic: `ℚ` throughout, `ℝ` where
  a square root occurs (`statistics.stdev`).
* `int(s)` is modelled for optionally signed decimal strings (underscore
  separators, accepted by Python since 3.6, are not modelled; no claim
  depends on them); `str.strip()` removes exactly the code points
  `str.isspace()` accepts, enumerated in `pyIsSpace`; `%Y` in `strftime`
  is unpadded, as glibc prints it.
-/

/-- The characters Python's `str.strip()` removes: every code point for
which `str.isspace()` holds — ASCII whitespace, the information separators
U+001C-U+001F, NEL (U+0085), NBSP (U+00A0), and the Unicode space and line
separators. -/
def pyIsSpace (c : Char) : Bool :=
  c.toNat = 9 || c.toNat = 10 || c.toNat = 11 || c.toNat = 12 || c.toNat = 13 ||
  c.toNat = 28 || c.toNat = 29 || c.toNat = 30 || c.toNat = 31 || c.toNat = 32 ||
  c.toNat = 133 || c.toNat = 160 || c.toNat = 5760 ||
  c.toNat = 8192 || c.toNat = 8193 || c.toNat = 8194 || c.toNat = 8195 ||
  c.toNat = 8196 || c.toNat = 8197 || c.toNat = 8198 || c.toNat = 8199 ||
  c.toNat = 8200 || c.toNat = 8201 || c.toNat = 8202 || c.toNat = 8232 ||
  c.toNat = 8233 || c.toNat = 8239 || c.toNat = 8287 || c.toNat = 12288

/-- Model of Python `str.strip()`: drop leading and trailing whitespace. -/
def pyStrip (l : List Char) : List Char :=
  ((l.dropWhile pyIsSpace).reverse.dropWhile pyIsSpace).reverse

/-- Model of Python `str.split(sep)` for a one-character separator. -/
def splitOnChar (sep : Char) : List Char → List (List Char)
  | [] => [[]]
  | c :: cs =>
    match splitOnChar sep cs with
    | [] => [[]]
    | r :: rs => if c = sep then [] :: r :: rs else (c :: r) :: rs

/-- Universal-newline translation performed by text-mode `open(..., 'r')`:
`"\r\n"` and a lone `"\r"` both become `"\n"`. -/
def translateNewlines : List Char → List Char
  | [] => []
  | [c] => if c = '\r' then ['\n'] else [c]
  | c :: c2 :: rest =>
    if c = '\r' then
      if c2 = '\n' then '\n' :: translateNewlines rest
      else '\n' :: translateNewlines (c2 :: rest)
    else c :: translateNewlines (c2 :: rest)

/-- The lines produced by iterating over an open text file, already without
their trailing newline (the source strips each line anyway). -/
def pyLines (content : List Char) : List (List Char) :=
  let parts := splitOnChar '\n' (translateNewlines content)
  match parts.getLast? with
  | some [] => parts.dropLast
  | _ => parts

/-- The decimal digit character for `n < 10`. -/
def digitChar (n : ℕ) : Char := Char.ofNat (48 + n)

/-- Is `c` an ASCII decimal digit? -/
def isDigitChar (c : Char) : Bool := 48 ≤ c.toNat && c.toNat ≤ 57

/-- Numeric value of a digit character. -/
def charVal (c : Char) : ℕ := c.toNat - 48

/-- Structural helper for `natToChars`: the first argument is fuel, always
sufficient when at least the number itself. -/
def natToCharsAux : ℕ → ℕ → List Char
  | 0, _ => []
  | fuel + 1, n =>
    if n < 10 then [digitChar n] else natToCharsAux fuel (n / 10) ++ [digitChar (n % 10)]

/-- Decimal representation of a natural number (as `str` produces it). -/
def natToChars (n : ℕ) : List Char := natToCharsAux (n + 1) n

/-- Value of a string of digit characters. -/
def digitsToNat (l : List Char) : ℕ := l.foldl (fun a c => a * 10 + charVal c) 0

/-- Left-pad with `'0'` to the given width (as `%02d`-style formatting). -/
def padZero (w : ℕ) (l : List Char) : List Char :=
  List.replicate (w - l.length) '0' ++ l

/-- Model of Python `int(s)` on the strings the program meets: optional
surrounding whitespace, optional sign, then decimal digits. -/
def parseInt (l : List Char) : Option ℤ :=
  match pyStrip l with
  | '-' :: ds =>
    if ds ≠ [] ∧ ds.all isDigitChar then some (-(digitsToNat ds : ℤ)) else none
  | '+' :: ds =>
    if ds ≠ [] ∧ ds.all isDigitChar then some (digitsToNat ds : ℤ) else none
  | ds =>
    if ds ≠ [] ∧ ds.all isDigitChar then some (digitsToNat ds : ℤ) else none

/-- `str(int)`. -/
def intToChars (z : ℤ) : List Char :=
  if z < 0 then '-' :: natToChars z.natAbs else natToChars z.toNat

/-- A calendar date as Python's `datetime.date` holds it. -/
structure PyDate where
  year : ℕ
  month : ℕ
  day : ℕ
deriving DecidableEq, Repr

/-- Gregorian leap-year rule (CPython `_is_leap`). -/
def isLeapYear (y : ℕ) : Bool := y % 4 = 0 && (y % 100 ≠ 0 || y % 400 = 0)

/-- Day counts of the twelve months of a common year. -/
def daysInMonthList : List ℕ := [31, 28, 31, 30, 31, 30, 31, 31, 30, 31, 30, 31]

/-- Days in month `m` of year `y` (CPython `_days_in_month`). -/
def daysInMonth (y m : ℕ) : ℕ :=
  if m = 2 ∧ isLeapYear y then 29 else daysInMonthList.getD (m - 1) 0

/-- Days in year `y` before month `m` (CPython `_days_before_month`). -/
def daysBeforeMonth (y m : ℕ) : ℕ :=
  ((List.range (m - 1)).map (fun i => daysInMonthList.getD i 0)).sum +
    (if 2 < m ∧ isLeapYear y then 1 else 0)

/-- Days before January 1st of year `y` (CPython `_days_before_year`). -/
def daysBeforeYear (y : ℕ) : ℕ :=
  (y - 1) * 365 + (y - 1) / 4 - (y - 1) / 100 + (y - 1) / 400

/-- CPython `date.toordinal`: day 1 is January 1st of year 1. -/
def PyDate.toOrdinal (d : PyDate) : ℕ :=
  daysBeforeYear d.year + daysBeforeMonth d.year d.month + d.day

/-- CPython `_ord2ymd` (`date.fromordinal`), made total over `ℕ`. -/
def pyDateFromOrdinal (n0 : ℕ) : PyDate :=
  let n := n0 - 1
  let n400 := n / 146097
  let n := n % 146097
  let n100 := n / 36524
  let n := n % 36524
  let n4 := n / 1461
  let n := n % 1461
  let n1 := n / 365
  let n := n % 365
  let year := n400 * 400 + 1 + n100 * 100 + n4 * 4 + n1
  if n1 = 4 ∨ n100 = 4 then ⟨year - 1, 12, 31⟩
  else
    let leap := n1 = 3 ∧ (n4 ≠ 24 ∨ n100 = 3)
    let month := (n + 50) / 32
    let preceding := daysBeforeMonthTab month + (if 2 < month ∧ leap then 1 else 0)
    if n < preceding then
      let month' := month - 1
      let preceding' :=
        preceding - (daysInMonthList.getD (month' - 1) 0 + (if month' = 2 ∧ leap then 1 else 0))
      ⟨year, month', n - preceding' + 1⟩
    else ⟨year, month, n - preceding + 1⟩
where
  /-- Cumulative day counts before each month in a common year
  (CPython `_DAYS_BEFORE_MONTH`). -/
  daysBeforeMonthTab (m : ℕ) : ℕ :=
    ((List.range (m - 1)).map (fun i => daysInMonthList.getD i 0)).sum

/-- `date - timedelta(days = i)` (total model of CPython's in-range
behaviour). -/
def PyDate.subDays (d : PyDate) (i : ℕ) : PyDate :=
  pyDateFromOrdinal (d.toOrdinal - i)

/-- `date.weekday()`: Monday is 0.  January 1st of year 1 (ordinal 1) is a
Monday. -/
def PyDate.weekday (d : PyDate) : ℕ := (d.toOrdinal + 6) % 7

/-- Python's comparison of `date` objects: lexicographic on
(year, month, day). -/
def PyDate.le (a b : PyDate) : Prop :=
  a.year < b.year ∨
    (a.year = b.year ∧ (a.month < b.month ∨ (a.month = b.month ∧ a.day ≤ b.day)))

instance (a b : PyDate) : Decidable (PyDate.le a b) := by
  unfold PyDate.le; infer_instance

/-- A date the `datetime.date` constructor accepts. -/
def PyDate.valid (d : PyDate) : Prop :=
  1 ≤ d.year ∧ d.year ≤ 9999 ∧ 1 ≤ d.month ∧ d.month ≤ 12 ∧
    1 ≤ d.day ∧ d.day ≤ daysInMonth d.year d.month

instance (d : PyDate) : Decidable d.valid := by
  unfold PyDate.valid; infer_instance

/-- `date.strftime("%Y-%m-%d")`: glibc prints `%Y` unpadded (so only years
1000-9999 yield the four digits `strptime`'s `%Y` requires), `%m` and `%d`
zero-padded to two digits. -/
def formatDate (d : PyDate) : List Char :=
  natToChars d.year ++ '-' :: (padZero 2 (natToChars d.month) ++ '-' :: padZero 2 (natToChars d.day))

/-- `datetime.strptime(s, "%Y-%m-%d").date()`: exactly four year digits,
one or two month and day digits, nothing else, and the triple must be a
valid calendar date. -/
def parseDate (l : List Char) : Option PyDate :=
  match splitOnChar '-' l with
  | [ys, ms, ds] =>
    if ys.length = 4 ∧ ys.all isDigitChar ∧
        1 ≤ ms.length ∧ ms.length ≤ 2 ∧ ms.all isDigitChar ∧
        1 ≤ ds.length ∧ ds.length ≤ 2 ∧ ds.all isDigitChar then
      let y := digitsToNat ys
      let m := digitsToNat ms
      let d := digitsToNat ds
      if 1 ≤ y ∧ 1 ≤ m ∧ m ≤ 12 ∧ 1 ≤ d ∧ d ≤ daysInMonth y m then
        some ⟨y, m, d⟩
      else none
    else none
  | _ => none

/-- Diary names are plain strings; kept as character lists. -/
abbrev DiaryName : Type := List Char

/-- The in-memory record store `historical_data`:
insertion-ordered `{date: {diary_name: number_of_articles}}`. -/
abbrev Store : Type := List (PyDate × List (DiaryName × ℤ))

/-- First-match association-list lookup (Python `dict` access). -/
def lookupKey {α β : Type} [DecidableEq α] : List (α × β) → α → Option β
  | [], _ => none
  | (k0, v0) :: rest, k => if k0 = k then some v0 else lookupKey rest k

/-- Lookup of a date's diary sub-mapping. -/
def lookupDate (s : Store) (d : PyDate) : Option (List (DiaryName × ℤ)) :=
  lookupKey s d

/-- `sub[diary_name] = count` on an insertion-ordered dict: overwrite in
place, or append a fresh key at the end. -/
def upsertDiary : List (DiaryName × ℤ) → DiaryName → ℤ → List (DiaryName × ℤ)
  | [], k, c => [(k, c)]
  | (k0, c0) :: rest, k, c =>
    if k0 = k then (k0, c) :: rest else (k0, c0) :: upsertDiary rest k c

/-- `historical_data[date][diary_name] = count`, where `historical_data` is
a `defaultdict(dict)`: a missing date gains a fresh (sub-)dict at the end. -/
def upsertStore : Store → PyDate → DiaryName → ℤ → Store
  | [], d, k, c => [(d, [(k, c)])]
  | (d0, sub) :: rest, d, k, c =>
    if d0 = d then (d0, upsertDiary sub k c) :: rest
    else (d0, sub) :: upsertStore rest d k c

/-- One line of the backing file: `YYYY-MM-DD,count,diary_name`. -/
def lineOfRecord (d : PyDate) (c : ℤ) (k : DiaryName) : List Char :=
  formatDate d ++ ',' :: (intToChars c ++ ',' :: k)

/-- Parsing one line of the backing file, as the load loop does:
`line.strip().split(',')` into exactly three fields, then
`strptime`/`int`. -/
def parseLine (l : List Char) : Option (PyDate × ℤ × DiaryName) :=
  match splitOnChar ',' (pyStrip l) with
  | [f1, f2, f3] =>
    match parseDate f1, parseInt f2 with
    | some d, some c => some (d, c, f3)
    | _, _ => none
  | _ => none

/-- Outcome signal of `load_data_from_file`: success print, the
`FileNotFoundError` dialog, or the generic failure dialog. -/
inductive LoadSignal where
  | success
  | fileNotFound
  | loadError
deriving DecidableEq, Repr

/-- The load loop: parse each line in turn, inserting into the store; stop
at the first line that raises.  Returns the store state and whether an
exception escaped the loop. -/
def processLines : Store → List (List Char) → Store × Bool
  | s, [] => (s, false)
  | s, l :: ls =>
    match parseLine l with
    | some (d, c, k) => processLines (upsertStore s d k c) ls
    | none => (s, true)

/-- `load_data_from_file(filename)`: resets the global store, then either
fails with the file-missing dialog, or parses line by line, stopping (with
the generic error dialog) at the first malformed line.  Returns the signal
shown and the resulting global store state. -/
def load_data_from_file (file : Option (List Char)) : LoadSignal × Store :=
  match file with
  | none => (.fileNotFound, [])
  | some content =>
    let r := processLines [] (pyLines content)
    (if r.2 then .loadError else .success, r.1)

/-- The lines `submit_data` writes when saving: one per (date, diary,
count), in mapping-iteration order. -/
def storeLines (s : Store) : List (List Char) :=
  (s.map (fun g => g.2.map (fun e => lineOfRecord g.1 e.2 e.1))).flatten

/-- The full file content written by the save step of `submit_data`: every
line followed by `'\n'`, replacing previous content. -/
def save_to_file (s : Store) : List Char :=
  (storeLines s).foldr (fun l acc => l ++ '\n' :: acc) []

/-- `add_article_count(date, diary_name, count)`. -/
def add_article_count (s : Store) (d : PyDate) (k : DiaryName) (c : ℤ) : Store :=
  upsertStore s d k c

/-- `statistics.mean` on a list of integers (idealised to exact
rationals). -/
def statistics_mean (data : List ℤ) : ℚ :=
  (data.sum : ℚ) / data.length

/-- Sum of squared deviations from the mean. -/
def sumSqDev (data : List ℤ) : ℚ :=
  (data.map (fun x => ((x : ℚ) - statistics_mean data) ^ 2)).sum

/-- Sample variance with Bessel's correction (`statistics.variance`). -/
def sampleVariance (data : List ℤ) : ℚ :=
  sumSqDev data / ((data.length : ℚ) - 1)

/-- `statistics.stdev`: square root of the sample variance. -/
noncomputable def statistics_stdev (data : List ℤ) : ℝ :=
  Real.sqrt ((sampleVariance data : ℚ) : ℝ)

/-- `calculate_coefficient_of_variation(data)`: 0 for fewer than two
samples, 0 for mean zero, else sample standard deviation over mean. -/
noncomputable def calculate_coefficient_of_variation (data : List ℤ) : ℝ :=
  if data.length < 2 then 0
  else if statistics_mean data = 0 then 0
  else statistics_stdev data / ((statistics_mean data : ℚ) : ℝ)

/-- Ascending insertion into a sorted list. -/
def insertSorted (x : ℤ) : List ℤ → List ℤ
  | [] => [x]
  | y :: ys => if x ≤ y then x :: y :: ys else y :: insertSorted x ys

/-- The ascending sort `np.percentile` performs internally. -/
def sortList (l : List ℤ) : List ℤ := l.foldr insertSorted []

/-- `np.percentile(data, p)` with the default linear interpolation between
closest ranks. -/
def npPercentile (data : List ℤ) (p : ℚ) : ℚ :=
  let s := sortList data
  let rank : ℚ := p / 100 * ((s.length : ℚ) - 1)
  let i := (Int.floor rank).toNat
  let frac : ℚ := rank - (Int.floor rank : ℤ)
  let lo : ℚ := (s.getD i 0 : ℤ)
  let hi : ℚ := (s.getD (i + 1) (s.getD i 0) : ℤ)
  lo + frac * (hi - lo)

/-- `calculate_interquartile_range(data)`: `(0, 0, 0)` below four samples,
else the 25th and 75th percentiles and their difference. -/
def calculate_interquartile_range (data : List ℤ) : ℚ × ℚ × ℚ :=
  if data.length < 4 then (0, 0, 0)
  else
    let q1 := npPercentile data 25
    let q3 := npPercentile data 75
    (q1, q3, q3 - q1)

/-- `Counter(data)` as an insertion-ordered association list from value to
multiplicity: a seen key is bumped in place, a new key appended. -/
def bumpCounter : List (ℤ × ℕ) → ℤ → List (ℤ × ℕ)
  | [], v => [(v, 1)]
  | (k, c) :: rest, v =>
    if k = v then (k, c + 1) :: rest else (k, c) :: bumpCounter rest v

/-- The `Counter` built from `data`. -/
def counterList (data : List ℤ) : List (ℤ × ℕ) :=
  data.foldl bumpCounter []

/-- The accumulator step of the stable maximum-by-count selection performed
by `most_common(1)`: keep the current best unless a strictly larger count
appears. -/
def pickLarger (acc : Option (ℤ × ℕ)) (e : ℤ × ℕ) : Option (ℤ × ℕ) :=
  match acc with
  | none => some e
  | some e0 => if e.2 > e0.2 then some e else acc

/-- `Counter(data).most_common(1)[0][0]`: the entry with the largest count;
`heapq.nlargest` is stable, so ties keep the earlier (first-encountered)
key. -/
def mostCommon1 (data : List ℤ) : Option ℤ :=
  ((counterList data).foldl pickLarger none).map Prod.fst

/-- `check_frequency_distribution(data, count)`: whether `count` equals the
most common value, and that value.  `none` models the `IndexError` on an
empty sample (the caller guards against it). -/
def check_frequency_distribution (data : List ℤ) (count : ℤ) : Option (Bool × ℤ) :=
  (mostCommon1 data).map (fun m => (decide (count = m), m))

/-- The per-weekday sample lists built by the loop in
`calculate_weekday_averages`: a `defaultdict(list)` keyed by
`date.weekday()`, appended to in store-iteration order for every record in
the trailing 180-day window whose sub-mapping contains the diary. -/
def weekdayDataLoop (cutoff : PyDate) (diary : DiaryName) :
    List (PyDate × List (DiaryName × ℤ)) → (ℕ → List ℤ) → (ℕ → List ℤ)
  | [], acc => acc
  | (d, sub) :: rest, acc =>
    match lookupKey sub diary with
    | some c =>
      if PyDate.le cutoff d then
        weekdayDataLoop cutoff diary rest
          (Function.update acc d.weekday (acc d.weekday ++ [c]))
      else weekdayDataLoop cutoff diary rest acc
    | none => weekdayDataLoop cutoff diary rest acc

/-- `calculate_weekday_averages(diary_name)` with the `datetime.now()`
reference date made explicit.  The returned Python dict holds exactly the
weekdays that collected at least one sample; a weekday with no samples is
an absent key (`none`), read back as 0 by every caller via `.get(day, 0)`. -/
def calculate_weekday_averages (s : Store) (diary : DiaryName) (asOf : PyDate)
    (w : ℕ) : Option ℚ :=
  let counts := weekdayDataLoop (asOf.subDays 180) diary s (fun _ => []) w
  if counts = [] then none
  else some ((counts.sum : ℚ) / counts.length)

/-- The three-way comparison at the end of `check_article_count`, over a
given weekday average. -/
def classifyAgainstAverage (count : ℤ) (average : ℚ) : String :=
  if (count : ℚ) < 0.8 * average then "under 80% of the average"
  else if (count : ℚ) > average then "above the average"
  else "within 80% of the average"

/-- `check_article_count(today, diary_name, count)` (with `datetime.now()`
explicit): classification string and the weekday average used. -/
def check_article_count (s : Store) (asOf today : PyDate) (diary : DiaryName)
    (count : ℤ) : String × ℚ :=
  let average := (calculate_weekday_averages s diary asOf today.weekday).getD 0
  (classifyAgainstAverage count average, average)

/-- `historical_data[day]` on the `defaultdict`: a missing key is inserted
with a fresh empty dict. -/
def ddGetItem (s : Store) (d : PyDate) : List (DiaryName × ℤ) × Store :=
  match lookupDate s d with
  | some sub => (sub, s)
  | none => ([], s ++ [(d, [])])

/-- One iteration of the `get_last_week_summary` loop:
`historical_data[day].get(diary_name, 0) if day in historical_data else 0`,
threading the store state through the defaultdict access. -/
def lastWeekStep (s : Store) (day : PyDate) (diary : DiaryName) : ℤ × Store :=
  if (lookupDate s day).isSome then
    let r := ddGetItem s day
    ((lookupKey r.1 diary).getD 0, r.2)
  else (0, s)

/-- `get_last_week_summary(date, diary_name)`: the seven (day, count)
entries for the entered date and the six preceding days, in insertion
order (entered date first), together with the store state after the
query. -/
def get_last_week_summary (s : Store) (date : PyDate) (diary : DiaryName) :
    List (PyDate × ℤ) × Store :=
  (List.range 7).foldl
    (fun acc i =>
      let day := date.subDays i
      let r := lastWeekStep acc.2 day diary
      (acc.1 ++ [(day, r.1)], r.2))
    ([], s)

/-- Result dialog of the phase-2/phase-3 statistical analysis in
`submit_data`. -/
inductive AnalysisResult where
  | belowQ1 (q1 : ℚ)
  | withinIQR (q1 q3 : ℚ)
  | modeMatch (m : ℤ)
  | modeMismatch (m : ℤ)
deriving DecidableEq, Repr

open scoped Classical in
/-- The phase-2/phase-3 analysis of `submit_data` on the collected
six-month sample: skipped for an empty sample; for coefficient of
variation above 0.2 the new count is placed against the quartiles (below
Q1, or within the interquartile range — there is no third branch); for low
variation it is checked against the most frequent value. -/
noncomputable def submit_analysis (data : List ℤ) (count : ℤ) :
    Option AnalysisResult :=
  if 0 < data.length then
    let cv := calculate_coefficient_of_variation data
    if cv > 0.2 then
      let q := calculate_interquartile_range data
      if (count : ℚ) < q.1 then some (.belowQ1 q.1)
      else some (.withinIQR q.1 q.2.1)
    else
      match check_frequency_distribution data count with
      | some (b, m) => some (if b then .modeMatch m else .modeMismatch m)
      | none => none
  else none

/-- The distinct values of a list in order of first occurrence — the key
order of `Counter(data)`. -/
def firstKeys : List ℤ → List ℤ
  | [] => []
  | v :: rest => v :: (firstKeys rest).filter (fun x => x ≠ v)

/-! ## Helper lemmas -/

theorem lastWeekStep_store (s : Store) (day : PyDate) (diary : DiaryName) :
    (lastWeekStep s day diary).2 = s := by
  unfold lastWeekStep ddGetItem
  cases h : lookupDate s day <;> simp [h]

theorem lastWeekStep_val (s : Store) (day : PyDate) (diary : DiaryName) :
    (lastWeekStep s day diary).1 =
      ((lookupDate s day).bind (fun sub => lookupKey sub diary)).getD 0 := by
  unfold lastWeekStep ddGetItem
  cases h : lookupDate s day <;> simp [h]

theorem week_foldl (diary : DiaryName) (date : PyDate) :
    ∀ (l : List ℕ) (acc : List (PyDate × ℤ)) (s : Store),
      (l.foldl
        (fun a i =>
          let day := date.subDays i
          let r := lastWeekStep a.2 day diary
          (a.1 ++ [(day, r.1)], r.2)) (acc, s)) =
      (acc ++ l.map (fun i =>
          (date.subDays i,
            ((lookupDate s (date.subDays i)).bind (fun sub => lookupKey sub diary)).getD 0)),
        s) := by
  intro l
  induction l with
  | nil => intro acc s; simp
  | cons i rest ih =>
    intro acc s
    simp only [List.foldl_cons, List.map_cons]
    rw [lastWeekStep_store, lastWeekStep_val, ih]
    simp

/-! ## Claim theorems -/

/-- C9: for every end date and diary, `get_last_week_summary` yields exactly
seven (date, count) pairs, ordered from the end date down to six days
before it, each count being the diary's stored count for that date or 0
when no record exists for that (date, diary) pair. -/
theorem C9_week_summary (s : Store) (date : PyDate) (diary : DiaryName) :
    (get_last_week_summary s date diary).1 =
      (List.range 7).map (fun i =>
        (date.subDays i,
          ((lookupDate s (date.subDays i)).bind (fun sub => lookupKey sub diary)).getD 0)) ∧
    (get_last_week_summary s date diary).1.length = 7 := by
  have h := week_foldl diary date (List.range 7) [] s
  unfold get_last_week_summary
  rw [h]
  simp

/-- C10: the read-only operations leave the record store unchanged.
`calculate_weekday_averages` and `check_article_count` only iterate over
the store's items and are embedded as pure functions of it, so they cannot
mutate it by construction; `get_last_week_summary` indexes the
`defaultdict` — which would insert an empty sub-dict for an absent date —
but only behind the `day in historical_data` membership test, so the store
state it returns is always exactly the input store. -/
theorem C10_read_only_ops_preserve_store (s : Store) (date : PyDate) (diary : DiaryName) :
    (get_last_week_summary s date diary).2 = s := by
  have h := week_foldl diary date (List.range 7) [] s
  unfold get_last_week_summary
  rw [h]

/-- C3: the classification of a count against a weekday average is
"under 80% of the average" exactly when `count < 0.8 * average`, otherwise
"above the average" exactly when `count > average`, otherwise "within 80%
of the average"; in particular 80 vs 100 is within, 79 vs 100 under,
101 vs 100 above, and 0 vs average 0 within. -/
theorem C3_classification_boundaries (count : ℤ) (average : ℚ) :
    (classifyAgainstAverage count average = "under 80% of the average" ↔
      (count : ℚ) < 0.8 * average) ∧
    (classifyAgainstAverage count average = "above the average" ↔
      (¬ (count : ℚ) < 0.8 * average ∧ (count : ℚ) > average)) ∧
    (classifyAgainstAverage count average = "within 80% of the average" ↔
      (¬ (count : ℚ) < 0.8 * average ∧ ¬ (count : ℚ) > average)) ∧
    classifyAgainstAverage 80 100 = "within 80% of the average" ∧
    classifyAgainstAverage 79 100 = "under 80% of the average" ∧
    classifyAgainstAverage 101 100 = "above the average" ∧
    classifyAgainstAverage 0 0 = "within 80% of the average" := by
  refine ⟨?_, ?_, ?_, by norm_num [classifyAgainstAverage], by norm_num [classifyAgainstAverage],
    by norm_num [classifyAgainstAverage], by norm_num [classifyAgainstAverage]⟩ <;>
    · unfold classifyAgainstAverage
      split_ifs with h1 h2 <;> simp_all

theorem weekdayDataLoop_eq_filterMap (cutoff : PyDate) (diary : DiaryName) :
    ∀ (s : List (PyDate × List (DiaryName × ℤ))) (acc : ℕ → List ℤ) (w : ℕ),
      weekdayDataLoop cutoff diary s acc w =
        acc w ++ s.filterMap (fun g =>
          if PyDate.le cutoff g.1 ∧ g.1.weekday = w then lookupKey g.2 diary else none) := by
  intro s
  induction s with
  | nil => intro acc w; simp [weekdayDataLoop]
  | cons g rest ih =>
    intro acc w
    obtain ⟨d, sub⟩ := g
    unfold weekdayDataLoop
    cases hk : lookupKey sub diary with
    | none => simp [hk, ih]
    | some c =>
      by_cases hle : PyDate.le cutoff d
      · simp only [hk, if_pos hle, ih]
        by_cases hw : d.weekday = w
        · subst hw
          simp [hk, hle, Function.update_same]
        · simp [hk, hle, hw, Function.update_noteq (Ne.symm hw)]
      · simp [hk, hle, ih]

/-- C2: for every diary and reference date, the weekday average read by the
callers (`.get(day, 0)`) is 0 for a weekday with no qualifying records and
the arithmetic mean of the qualifying counts otherwise, where a record
qualifies exactly when its date is at least 180 days before the reference
date (later dates, including future ones, are not excluded) and its
sub-mapping contains the diary. -/
theorem C2_weekday_averages (s : Store) (diary : DiaryName) (asOf : PyDate) (w : ℕ) :
    (calculate_weekday_averages s diary asOf w).getD 0 =
      (let quals : List ℤ := s.filterMap (fun g =>
        if PyDate.le (asOf.subDays 180) g.1 ∧ g.1.weekday = w then lookupKey g.2 diary
        else none)
      if quals = [] then (0 : ℚ) else (quals.sum : ℚ) / quals.length) := by
  unfold calculate_weekday_averages
  rw [weekdayDataLoop_eq_filterMap]
  simp only [List.nil_append]
  by_cases h :
      (s.filterMap (fun g =>
        if PyDate.le (asOf.subDays 180) g.1 ∧ g.1.weekday = w then lookupKey g.2 diary
        else none)) = [] <;>
    simp [h]

theorem insertSorted_eq_orderedInsert (x : ℤ) (l : List ℤ) :
    insertSorted x l = List.orderedInsert (· ≤ ·) x l := by
  induction l with
  | nil => rfl
  | cons y ys ih => simp only [insertSorted, List.orderedInsert, ih]

theorem sortList_eq_insertionSort (l : List ℤ) :
    sortList l = List.insertionSort (· ≤ ·) l := by
  induction l with
  | nil => rfl
  | cons x xs ih =>
    simp only [sortList, List.foldr_cons, List.insertionSort]
    rw [← ih]
    exact insertSorted_eq_orderedInsert x (sortList xs)

theorem sortList_length (l : List ℤ) : (sortList l).length = l.length := by
  rw [sortList_eq_insertionSort]
  exact (List.perm_insertionSort (· ≤ ·) l).length_eq

theorem sortList_sorted (l : List ℤ) : List.Sorted (· ≤ ·) (sortList l) := by
  rw [sortList_eq_insertionSort]
  exact List.sorted_insertionSort (· ≤ ·) l

theorem getD_eq_getElem (l : List ℤ) (i : ℕ) (d : ℤ) (h : i < l.length) :
    l.getD i d = l[i] := by
  simp [List.getD_eq_getElem?_getD, List.getElem?_eq_getElem h]

/-- C6: the coefficient of variation is 0 for fewer than two samples and
for mean zero (so on `[]`, `[5]` and `[0,0,0]` it is 0), and otherwise the
Bessel-corrected sample standard deviation divided by the mean. -/
theorem C6_coefficient_of_variation (data : List ℤ) :
    calculate_coefficient_of_variation data =
      (if data.length < 2 then (0 : ℝ)
       else if (data.sum : ℚ) / (data.length : ℚ) = 0 then 0
       else
         Real.sqrt
           ((((data.map (fun x => ((x : ℚ) - (data.sum : ℚ) / (data.length : ℚ)) ^ 2)).sum /
               ((data.length : ℚ) - 1) : ℚ) : ℝ)) /
           (((data.sum : ℚ) / (data.length : ℚ) : ℚ) : ℝ)) ∧
    calculate_coefficient_of_variation [] = 0 ∧
    calculate_coefficient_of_variation [5] = 0 ∧
    calculate_coefficient_of_variation [0, 0, 0] = 0 := by
  refine ⟨rfl, by norm_num [calculate_coefficient_of_variation],
    by norm_num [calculate_coefficient_of_variation],
    by norm_num [calculate_coefficient_of_variation, statistics_mean]⟩

theorem npPercentile_interp (data : List ℤ) (p : ℚ) (hp0 : 0 ≤ p) (hp1 : p < 100)
    (hn : 2 ≤ data.length) :
    npPercentile data p =
      (((sortList data).getD (Int.floor (p / 100 * ((data.length : ℚ) - 1))).toNat 0 : ℤ) : ℚ) +
        (p / 100 * ((data.length : ℚ) - 1) -
          ((Int.floor (p / 100 * ((data.length : ℚ) - 1)) : ℤ) : ℚ)) *
          ((((sortList data).getD
              ((Int.floor (p / 100 * ((data.length : ℚ) - 1))).toNat + 1) 0 : ℤ) : ℚ) -
            (((sortList data).getD
              (Int.floor (p / 100 * ((data.length : ℚ) - 1))).toNat 0 : ℤ) : ℚ)) := by
  have hlen : (sortList data).length = data.length := sortList_length data
  have hn1 : (1 : ℚ) ≤ (data.length : ℚ) - 1 := by
    have : (2 : ℚ) ≤ (data.length : ℚ) := by exact_mod_cast hn
    linarith
  have hr0 : 0 ≤ p / 100 * ((data.length : ℚ) - 1) :=
    mul_nonneg (div_nonneg hp0 (by norm_num)) (by linarith)
  have hrlt : p / 100 * ((data.length : ℚ) - 1) < (data.length : ℚ) - 1 := by
    have hdiv : p / 100 < 1 := (div_lt_one (by norm_num)).mpr hp1
    have hpos : (0 : ℚ) < (data.length : ℚ) - 1 := by linarith
    calc p / 100 * ((data.length : ℚ) - 1) < 1 * ((data.length : ℚ) - 1) :=
          mul_lt_mul_of_pos_right hdiv hpos
      _ = (data.length : ℚ) - 1 := one_mul _
  have hfl0 : 0 ≤ Int.floor (p / 100 * ((data.length : ℚ) - 1)) := Int.floor_nonneg.mpr hr0
  have hfllt : Int.floor (p / 100 * ((data.length : ℚ) - 1)) < (data.length : ℤ) - 1 := by
    rw [Int.floor_lt]
    push_cast
    exact hrlt
  have hrange : (Int.floor (p / 100 * ((data.length : ℚ) - 1))).toNat + 1 < (sortList data).length := by
    rw [hlen]
    omega
  have hhi :
      (sortList data).getD ((Int.floor (p / 100 * ((data.length : ℚ) - 1))).toNat + 1)
          ((sortList data).getD (Int.floor (p / 100 * ((data.length : ℚ) - 1))).toNat 0) =
        (sortList data).getD ((Int.floor (p / 100 * ((data.length : ℚ) - 1))).toNat + 1) 0 := by
    rw [getD_eq_getElem _ _ _ hrange, getD_eq_getElem _ _ _ hrange]
  simp only [npPercentile]
  rw [hlen, hhi]

/-- C7: the interquartile-range computation returns `(0, 0, 0)` for fewer
than four samples, and otherwise the 25th and 75th percentiles of the
sorted data by linear interpolation between closest ranks together with
their difference; in particular `[1,2,3]` gives `(0,0,0)` and `[1,2,3,4]`
gives Q1 = 1.75 and Q3 = 3.25. -/
theorem C7_interquartile_range_spec (data : List ℤ) :
    (data.length < 4 → calculate_interquartile_range data = (0, 0, 0)) ∧
    (4 ≤ data.length →
      calculate_interquartile_range data =
        (let s := sortList data
         let r1 : ℚ := 25 / 100 * ((data.length : ℚ) - 1)
         let r3 : ℚ := 75 / 100 * ((data.length : ℚ) - 1)
         let q1 : ℚ := ((s.getD (Int.floor r1).toNat 0 : ℤ) : ℚ) +
           (r1 - ((Int.floor r1 : ℤ) : ℚ)) *
             (((s.getD ((Int.floor r1).toNat + 1) 0 : ℤ) : ℚ) -
               ((s.getD (Int.floor r1).toNat 0 : ℤ) : ℚ))
         let q3 : ℚ := ((s.getD (Int.floor r3).toNat 0 : ℤ) : ℚ) +
           (r3 - ((Int.floor r3 : ℤ) : ℚ)) *
             (((s.getD ((Int.floor r3).toNat + 1) 0 : ℤ) : ℚ) -
               ((s.getD (Int.floor r3).toNat 0 : ℤ) : ℚ))
         (q1, q3, q3 - q1))) ∧
    calculate_interquartile_range [1, 2, 3] = (0, 0, 0) ∧
    calculate_interquartile_range [1, 2, 3, 4] = (7/4, 13/4, 3/2) := by
  refine ⟨?_, ?_, by norm_num [calculate_interquartile_range],
    by
      have h2 : (2 : ℤ).toNat = 2 := rfl
      norm_num [calculate_interquartile_range, npPercentile, sortList, insertSorted, h2]⟩
  · intro h
    unfold calculate_interquartile_range
    rw [if_pos h]
  · intro h
    have h2 : 2 ≤ data.length := by omega
    unfold calculate_interquartile_range
    rw [if_neg (by omega)]
    rw [npPercentile_interp data 25 (by norm_num) (by norm_num) h2,
      npPercentile_interp data 75 (by norm_num) (by norm_num) h2]

theorem mem_firstKeys (l : List ℤ) (v : ℤ) : v ∈ firstKeys l ↔ v ∈ l := by
  induction l with
  | nil => simp [firstKeys]
  | cons w rest ih =>
    simp only [firstKeys, List.mem_cons, List.mem_filter, ih, decide_eq_true_eq]
    by_cases h : v = w <;> simp [h]

theorem firstKeys_nodup (l : List ℤ) : (firstKeys l).Nodup := by
  induction l with
  | nil => simp [firstKeys]
  | cons w rest ih =>
    simp only [firstKeys, List.nodup_cons]
    refine ⟨fun hmem => ?_, ih.filter _⟩
    simp only [List.mem_filter, decide_eq_true_eq] at hmem
    exact hmem.2 rfl

theorem firstKeys_append_singleton (l : List ℤ) (v : ℤ) :
    firstKeys (l ++ [v]) = if v ∈ l then firstKeys l else firstKeys l ++ [v] := by
  induction l with
  | nil => simp [firstKeys]
  | cons w rest ih =>
    have hstep : firstKeys ((w :: rest) ++ [v]) =
        w :: (firstKeys (rest ++ [v])).filter (fun x => x ≠ w) := by
      simp [firstKeys]
    rw [hstep, ih]
    by_cases hv : v ∈ rest
    · simp [hv, List.mem_cons, firstKeys]
    · by_cases hvw : v = w
      · subst hvw
        simp [hv, List.filter_append, List.mem_cons, firstKeys]
      · simp [hv, hvw, List.filter_append, List.mem_cons, Ne.symm hvw, firstKeys]

theorem bumpCounter_not_mem (ks : List ℤ) (f : ℤ → ℕ) (v : ℤ) (h : v ∉ ks) :
    bumpCounter (ks.map (fun k => (k, f k))) v = ks.map (fun k => (k, f k)) ++ [(v, 1)] := by
  induction ks with
  | nil => rfl
  | cons k ks ih =>
    have hkv : ¬ k = v := fun hkv => h (hkv ▸ List.mem_cons_self k ks)
    simp only [List.mem_cons, not_or] at h
    simp only [List.map_cons, bumpCounter, if_neg hkv, List.cons_append]
    rw [ih h.2]

theorem bumpCounter_mem (ks : List ℤ) (f : ℤ → ℕ) (v : ℤ) (hnd : ks.Nodup) (h : v ∈ ks) :
    bumpCounter (ks.map (fun k => (k, f k))) v =
      ks.map (fun k => (k, if k = v then f k + 1 else f k)) := by
  induction ks with
  | nil => simp at h
  | cons k ks ih =>
    simp only [List.nodup_cons] at hnd
    by_cases hkv : k = v
    · subst hkv
      have h1 : bumpCounter ((k, f k) :: List.map (fun x => (x, f x)) ks) k =
          (k, f k + 1) :: List.map (fun x => (x, f x)) ks := by
        simp [bumpCounter]
      simp only [List.map_cons, h1]
      congr 1
      refine List.map_congr_left (fun x hx => ?_)
      have hxk : ¬ x = k := fun hxk => hnd.1 (hxk ▸ hx)
      simp [hxk]
    · have hv : v ∈ ks := by
        rcases List.mem_cons.mp h with h1 | h1
        · exact absurd h1.symm hkv
        · exact h1
      simp only [List.map_cons, bumpCounter, if_neg hkv, if_neg hkv, ih hnd.2 hv]

theorem counterList_eq (data : List ℤ) :
    counterList data = (firstKeys data).map (fun k => (k, data.count k)) := by
  induction data using List.reverseRecOn with
  | nil => rfl
  | append_singleton xs v ih =>
    have hstep : counterList (xs ++ [v]) = bumpCounter (counterList xs) v := by
      simp [counterList, List.foldl_append]
    rw [hstep, ih, firstKeys_append_singleton]
    by_cases hv : v ∈ xs
    · rw [if_pos hv,
        bumpCounter_mem _ _ _ (firstKeys_nodup xs) ((mem_firstKeys xs v).mpr hv)]
      apply List.map_congr_left
      intro k hk
      by_cases hkv : k = v
      · subst hkv
        simp [List.count_append]
      · simp [hkv, List.count_append, List.count_singleton, Ne.symm hkv]
    · rw [if_neg hv,
        bumpCounter_not_mem _ _ _ (fun hm => hv ((mem_firstKeys xs v).mp hm)),
        List.map_append]
      congr 1
      · apply List.map_congr_left
        intro k hk
        have hk' : k ∈ xs := (mem_firstKeys xs k).mp hk
        have hkv : ¬ v = k := fun hvk => hv (hvk ▸ hk')
        simp [List.count_append, List.count_singleton, hkv]
      · simp [List.count_append, List.count_eq_zero_of_not_mem hv]

theorem foldr_max_le (xs : List ℕ) (x : ℕ) (h : x ∈ xs) : x ≤ xs.foldr max 0 := by
  induction xs with
  | nil => simp at h
  | cons y ys ih =>
    rcases List.mem_cons.mp h with h1 | h1
    · subst h1
      exact le_max_left _ _
    · exact le_trans (ih h1) (le_max_right _ _)

theorem foldr_max_attained (xs : List ℕ) : xs.foldr max 0 = 0 ∨ xs.foldr max 0 ∈ xs := by
  induction xs with
  | nil => left; rfl
  | cons y ys ih =>
    simp only [List.foldr_cons]
    rcases Nat.le_total y (ys.foldr max 0) with hle | hle
    · rw [max_eq_right hle]
      rcases ih with h0 | hmem
      · left; exact h0
      · right; exact List.mem_cons_of_mem _ hmem
    · rw [max_eq_left hle]
      right
      exact List.mem_cons_self _ _

theorem foldl_pickLarger_some (L : List (ℤ × ℕ)) : ∀ (b : ℤ × ℕ),
    L.foldl pickLarger (some b) =
      some (if (L.map Prod.snd).foldr max 0 ≤ b.2 then b
        else (L.find? (fun e => decide ((L.map Prod.snd).foldr max 0 ≤ e.2))).getD b) := by
  induction L with
  | nil => intro b; simp
  | cons e L ih =>
    intro b
    simp only [List.foldl_cons, List.map_cons, List.foldr_cons]
    by_cases heb : e.2 > b.2
    · have hstep : pickLarger (some b) e = some e := by simp [pickLarger, heb]
      rw [hstep, ih e]
      by_cases hMe : (L.map Prod.snd).foldr max 0 ≤ e.2
      · simp only [max_eq_left hMe]
        rw [if_pos hMe, if_neg (by omega : ¬ e.2 ≤ b.2),
          List.find?_cons_of_pos _ (by simp)]
        simp
      · simp only [max_eq_right (by omega : e.2 ≤ (L.map Prod.snd).foldr max 0)]
        rw [if_neg hMe, if_neg (by omega : ¬ (L.map Prod.snd).foldr max 0 ≤ b.2),
          List.find?_cons_of_neg _ (by simp; omega)]
        rcases foldr_max_attained (L.map Prod.snd) with h0 | hmem
        · omega
        · obtain ⟨x, hxL, hx2⟩ := List.mem_map.mp hmem
          have hsome :
              (L.find? fun e => decide ((L.map Prod.snd).foldr max 0 ≤ e.2)).isSome := by
            rw [List.find?_isSome]
            exact ⟨x, hxL, by simp [hx2]⟩
          obtain ⟨r, hr⟩ := Option.isSome_iff_exists.mp hsome
          rw [hr]
          simp
    · have hstep : pickLarger (some b) e = some b := by simp [pickLarger, heb]
      rw [hstep, ih b]
      by_cases hMb : (L.map Prod.snd).foldr max 0 ≤ b.2
      · rw [if_pos hMb, if_pos (max_le (by omega) hMb)]
      · simp only [max_eq_right (by omega : e.2 ≤ (L.map Prod.snd).foldr max 0)]
        rw [if_neg hMb, if_neg hMb,
          List.find?_cons_of_neg _ (by simp; omega)]

theorem foldl_pickLarger_none (L : List (ℤ × ℕ)) (hL : L ≠ []) :
    L.foldl pickLarger none =
      L.find? (fun e => decide ((L.map Prod.snd).foldr max 0 ≤ e.2)) := by
  cases L with
  | nil => exact absurd rfl hL
  | cons e L =>
    simp only [List.foldl_cons, List.map_cons, List.foldr_cons]
    have h0 : pickLarger none e = some e := rfl
    rw [h0, foldl_pickLarger_some]
    by_cases hMe : (L.map Prod.snd).foldr max 0 ≤ e.2
    · simp only [max_eq_left hMe]
      rw [if_pos hMe, List.find?_cons_of_pos _ (by simp)]
    · simp only [max_eq_right (by omega : e.2 ≤ (L.map Prod.snd).foldr max 0)]
      rw [if_neg hMe, List.find?_cons_of_neg _ (by simp; omega)]
      rcases foldr_max_attained (L.map Prod.snd) with h0' | hmem
      · omega
      · obtain ⟨x, hxL, hx2⟩ := List.mem_map.mp hmem
        have hsome :
            (L.find? fun e => decide ((L.map Prod.snd).foldr max 0 ≤ e.2)).isSome := by
          rw [List.find?_isSome]
          exact ⟨x, hxL, by simp [hx2]⟩
        obtain ⟨r, hr⟩ := Option.isSome_iff_exists.mp hsome
        rw [hr]
        simp

theorem find?_filter_ne (p : ℤ → Bool) (v : ℤ) (hp : p v = false) (L : List ℤ) :
    (L.filter (fun x => x ≠ v)).find? p = L.find? p := by
  induction L with
  | nil => rfl
  | cons y L ih =>
    by_cases hyv : y = v
    · subst hyv
      have hdrop : (y :: L).filter (fun x => x ≠ y) = L.filter (fun x => x ≠ y) := by
        simp [List.filter_cons]
      rw [hdrop, ih, List.find?_cons_of_neg _ (by simp [hp])]
    · have hkeep : (y :: L).filter (fun x => x ≠ v) = y :: L.filter (fun x => x ≠ v) := by
        simp [List.filter_cons, hyv]
      rw [hkeep]
      cases hpy : p y
      · rw [List.find?_cons_of_neg _ (by simp [hpy]), List.find?_cons_of_neg _ (by simp [hpy]), ih]
      · rw [List.find?_cons_of_pos _ hpy, List.find?_cons_of_pos _ hpy]

theorem find?_firstKeys (p : ℤ → Bool) (l : List ℤ) :
    (firstKeys l).find? p = l.find? p := by
  induction l with
  | nil => rfl
  | cons v l ih =>
    show (v :: (firstKeys l).filter (fun x => x ≠ v)).find? p = (v :: l).find? p
    cases hpv : p v
    · rw [List.find?_cons_of_neg _ (by simp [hpv]), List.find?_cons_of_neg _ (by simp [hpv]),
        find?_filter_ne p v hpv, ih]
    · rw [List.find?_cons_of_pos _ hpv, List.find?_cons_of_pos _ hpv]

theorem find?_congr_mem {p q : ℤ → Bool} (l : List ℤ) (h : ∀ a ∈ l, p a = q a) :
    l.find? p = l.find? q := by
  induction l with
  | nil => rfl
  | cons a l ih =>
    have ha := h a (List.mem_cons_self a l)
    cases hq : q a
    · rw [List.find?_cons_of_neg _ (by simp [ha, hq]), List.find?_cons_of_neg _ (by simp [hq]),
        ih (fun x hx => h x (List.mem_cons_of_mem a hx))]
    · rw [List.find?_cons_of_pos _ (ha.trans hq), List.find?_cons_of_pos _ hq]

theorem mostCommon1_find (data : List ℤ) (h : data ≠ []) :
    ∃ m, data.find? (fun v =>
        decide (data.count v = (data.map (fun x => data.count x)).foldr max 0)) = some m ∧
      mostCommon1 data = some m := by
  have hCL : counterList data = (firstKeys data).map (fun k => (k, data.count k)) :=
    counterList_eq data
  have hCLne : counterList data ≠ [] := by
    cases data with
    | nil => exact absurd rfl h
    | cons d r =>
      rw [hCL]
      simp [firstKeys]
  have hmc : mostCommon1 data =
      ((counterList data).find?
        (fun e => decide (((counterList data).map Prod.snd).foldr max 0 ≤ e.2))).map Prod.fst := by
    unfold mostCommon1
    rw [foldl_pickLarger_none _ hCLne]
  have hsnd : (counterList data).map Prod.snd = (firstKeys data).map (fun k => data.count k) := by
    rw [hCL, List.map_map]
    rfl
  have hMeq : ((firstKeys data).map (fun k => data.count k)).foldr max 0 =
      (data.map (fun x => data.count x)).foldr max 0 := by
    apply le_antisymm
    · rcases foldr_max_attained ((firstKeys data).map (fun k => data.count k)) with h0 | hmem
      · rw [h0]
        exact Nat.zero_le _
      · obtain ⟨k, hk, hkeq⟩ := List.mem_map.mp hmem
        rw [← hkeq]
        exact foldr_max_le _ _ (List.mem_map.mpr ⟨k, (mem_firstKeys data k).mp hk, rfl⟩)
    · rcases foldr_max_attained (data.map (fun x => data.count x)) with h0 | hmem
      · rw [h0]
        exact Nat.zero_le _
      · obtain ⟨k, hk, hkeq⟩ := List.mem_map.mp hmem
        rw [← hkeq]
        exact foldr_max_le _ _ (List.mem_map.mpr ⟨k, (mem_firstKeys data k).mpr hk, rfl⟩)
  rw [hsnd] at hmc
  simp only [hMeq] at hmc
  rw [hCL, List.find?_map, Option.map_map] at hmc
  have hcomp1 : ((fun e : ℤ × ℕ =>
      decide ((data.map (fun x => data.count x)).foldr max 0 ≤ e.2)) ∘
        fun k : ℤ => (k, data.count k)) =
      fun v : ℤ => decide ((data.map (fun x => data.count x)).foldr max 0 ≤ data.count v) := rfl
  have hcomp2 : (Prod.fst ∘ fun k : ℤ => (k, data.count k)) = id := rfl
  rw [hcomp1, hcomp2, Option.map_id, find?_firstKeys] at hmc
  have hconv : data.find?
      (fun v => decide ((data.map (fun x => data.count x)).foldr max 0 ≤ data.count v)) =
      data.find? (fun v =>
        decide (data.count v = (data.map (fun x => data.count x)).foldr max 0)) := by
    apply find?_congr_mem
    intro a ha
    have hle : data.count a ≤ (data.map (fun x => data.count x)).foldr max 0 :=
      foldr_max_le _ _ (List.mem_map.mpr ⟨a, ha, rfl⟩)
    by_cases heq : data.count a = (data.map (fun x => data.count x)).foldr max 0
    · simp [heq]
    · simp [heq]
      omega
  rw [hconv] at hmc
  have hsome : (data.find? (fun v =>
      decide (data.count v = (data.map (fun x => data.count x)).foldr max 0))).isSome := by
    rcases foldr_max_attained (data.map (fun x => data.count x)) with h0 | hmem
    · cases data with
      | nil => exact absurd rfl h
      | cons d r =>
        exfalso
        have hd : (d :: r).count d ≤ ((d :: r).map (fun x => (d :: r).count x)).foldr max 0 :=
          foldr_max_le _ _ (List.mem_map.mpr ⟨d, List.mem_cons_self d r, rfl⟩)
        have hpos : 0 < (d :: r).count d := List.count_pos_iff.mpr (List.mem_cons_self d r)
        omega
    · obtain ⟨k, hk, hkeq⟩ := List.mem_map.mp hmem
      rw [List.find?_isSome]
      exact ⟨k, hk, by simp [hkeq]⟩
  obtain ⟨m, hm⟩ := Option.isSome_iff_exists.mp hsome
  exact ⟨m, hm, by rw [hmc, hm]; rfl⟩

/-- C8: for every non-empty sample and candidate count,
`check_frequency_distribution` returns the pair (matches, m) where m is the
single most frequent value — ties broken by the first value reaching the
maximum frequency in input order — and matches holds exactly when the
candidate equals m. -/
theorem C8_frequency_mode (data : List ℤ) (count : ℤ) (h : data ≠ []) :
    ∃ m, data.find? (fun v =>
        decide (data.count v = (data.map (fun x => data.count x)).foldr max 0)) = some m ∧
      check_frequency_distribution data count = some (decide (count = m), m) := by
  obtain ⟨m, hfind, hmc⟩ := mostCommon1_find data h
  refine ⟨m, hfind, ?_⟩
  unfold check_frequency_distribution
  rw [hmc]
  rfl

/-- Witness for C8 at the specification's example sample `[3,3,5,5,5]`. -/
theorem C8_frequency_mode_witness :
    (([3, 3, 5, 5, 5] : List ℤ) ≠ [] ∧
      ∃ m, ([3, 3, 5, 5, 5] : List ℤ).find? (fun v =>
          decide (([3, 3, 5, 5, 5] : List ℤ).count v =
            (([3, 3, 5, 5, 5] : List ℤ).map
              (fun x => ([3, 3, 5, 5, 5] : List ℤ).count x)).foldr max 0)) = some m ∧
        check_frequency_distribution [3, 3, 5, 5, 5] 5 = some (decide ((5 : ℤ) = m), m)) ∧
    check_frequency_distribution [3, 3, 5, 5, 5] 5 = some (true, 5) ∧
    check_frequency_distribution [3, 3, 5, 5, 5] 3 = some (false, 5) :=
  ⟨⟨by decide, C8_frequency_mode [3, 3, 5, 5, 5] 5 (by decide)⟩, by decide, by decide⟩

theorem sortList_getD_mono (l : List ℤ) (i j : ℕ) (hij : i ≤ j) (hj : j < (sortList l).length) :
    (sortList l).getD i 0 ≤ (sortList l).getD j 0 := by
  rcases eq_or_lt_of_le hij with rfl | hlt
  · exact le_refl _
  · rw [getD_eq_getElem _ _ _ (lt_trans hlt hj), getD_eq_getElem _ _ _ hj]
    have hs := sortList_sorted l
    have hrel := hs.rel_get_of_lt (a := ⟨i, lt_trans hlt hj⟩) (b := ⟨j, hj⟩)
      (Fin.mk_lt_mk.mpr hlt)
    simpa [List.get_eq_getElem] using hrel

theorem npPercentile_q1_le_q3 (data : List ℤ) (hn : 4 ≤ data.length) :
    npPercentile data 25 ≤ npPercentile data 75 := by
  have h2 : 2 ≤ data.length := by omega
  rw [npPercentile_interp data 25 (by norm_num) (by norm_num) h2,
    npPercentile_interp data 75 (by norm_num) (by norm_num) h2]
  have hlen : (sortList data).length = data.length := sortList_length data
  set r1 : ℚ := 25 / 100 * ((data.length : ℚ) - 1) with hr1
  set r3 : ℚ := 75 / 100 * ((data.length : ℚ) - 1) with hr3
  have hn1 : (3 : ℚ) ≤ (data.length : ℚ) - 1 := by
    have : (4 : ℚ) ≤ (data.length : ℚ) := by exact_mod_cast hn
    linarith
  have hr10 : 0 ≤ r1 := by rw [hr1]; apply mul_nonneg (by norm_num) (by linarith)
  have hr30 : 0 ≤ r3 := by rw [hr3]; apply mul_nonneg (by norm_num) (by linarith)
  have hgap : r1 + 1 ≤ r3 := by rw [hr1, hr3]; linarith
  have hfl13 : ⌊r1⌋ < ⌊r3⌋ := by
    have h1 : (⌊r1⌋ : ℚ) ≤ r1 := Int.floor_le r1
    have h3 : r3 - 1 < (⌊r3⌋ : ℚ) := by
      have := Int.lt_floor_add_one r3
      linarith
    have hq : (⌊r1⌋ : ℚ) < (⌊r3⌋ : ℚ) := by linarith
    exact_mod_cast hq
  have hfl10 : 0 ≤ ⌊r1⌋ := Int.floor_nonneg.mpr hr10
  have hfl30 : 0 ≤ ⌊r3⌋ := Int.floor_nonneg.mpr hr30
  have hr3lt : r3 < (data.length : ℚ) - 1 := by rw [hr3]; linarith
  have hfl3lt : ⌊r3⌋ < (data.length : ℤ) - 1 := by
    rw [Int.floor_lt]
    push_cast
    exact hr3lt
  have hi3 : ⌊r3⌋.toNat + 1 < (sortList data).length := by rw [hlen]; omega
  have hi13 : ⌊r1⌋.toNat + 1 ≤ ⌊r3⌋.toNat := by omega
  have hmono1 : (sortList data).getD ⌊r1⌋.toNat 0 ≤ (sortList data).getD (⌊r1⌋.toNat + 1) 0 :=
    sortList_getD_mono data _ _ (by omega) (by omega)
  have hmono2 :
      (sortList data).getD (⌊r1⌋.toNat + 1) 0 ≤ (sortList data).getD ⌊r3⌋.toNat 0 :=
    sortList_getD_mono data _ _ hi13 (by omega)
  have hmono3 : (sortList data).getD ⌊r3⌋.toNat 0 ≤ (sortList data).getD (⌊r3⌋.toNat + 1) 0 :=
    sortList_getD_mono data _ _ (by omega) hi3
  have hf1lt : r1 - (⌊r1⌋ : ℚ) < 1 := by
    have := Int.lt_floor_add_one r1
    linarith
  have hf10 : 0 ≤ r1 - (⌊r1⌋ : ℚ) := by
    have := Int.floor_le r1
    linarith
  have hf30 : 0 ≤ r3 - (⌊r3⌋ : ℚ) := by
    have := Int.floor_le r3
    linarith
  have hc1 : ((sortList data).getD ⌊r1⌋.toNat 0 : ℚ) ≤
      ((sortList data).getD (⌊r1⌋.toNat + 1) 0 : ℚ) := by exact_mod_cast hmono1
  have hc2 : ((sortList data).getD (⌊r1⌋.toNat + 1) 0 : ℚ) ≤
      ((sortList data).getD ⌊r3⌋.toNat 0 : ℚ) := by exact_mod_cast hmono2
  have hc3 : ((sortList data).getD ⌊r3⌋.toNat 0 : ℚ) ≤
      ((sortList data).getD (⌊r3⌋.toNat + 1) 0 : ℚ) := by exact_mod_cast hmono3
  nlinarith [mul_nonneg (by linarith : (0 : ℚ) ≤ 1 - (r1 - (⌊r1⌋ : ℚ)))
      (by linarith : (0 : ℚ) ≤ ((sortList data).getD (⌊r1⌋.toNat + 1) 0 : ℚ) -
        ((sortList data).getD ⌊r1⌋.toNat 0 : ℚ)),
    mul_nonneg hf30
      (by linarith : (0 : ℚ) ≤ ((sortList data).getD (⌊r3⌋.toNat + 1) 0 : ℚ) -
        ((sortList data).getD ⌊r3⌋.toNat 0 : ℚ))]

theorem iqr_q1_le_q3 (data : List ℤ) :
    (calculate_interquartile_range data).1 ≤ (calculate_interquartile_range data).2.1 := by
  unfold calculate_interquartile_range
  by_cases h : data.length < 4
  · simp [h]
  · simp only [if_neg h]
    exact npPercentile_q1_le_q3 data (by omega)

/-- C5: on a non-empty six-month sample, the analysis branches on the
coefficient of variation: above 0.2 it reports the count's position
relative to the quartiles with exactly two outcomes — below the first
quartile exactly when `count < Q1`, and "within the interquartile range"
otherwise, so a count above Q3 is reported identically to one inside the
IQR; at or below 0.2 it instead reports whether the count matches the
sample's most frequent value. -/
theorem C5_variation_branches (data : List ℤ) (count : ℤ) (h : data ≠ []) :
    (calculate_coefficient_of_variation data > 0.2 →
      (submit_analysis data count =
          some (.belowQ1 (calculate_interquartile_range data).1) ↔
        (count : ℚ) < (calculate_interquartile_range data).1) ∧
      (¬ (count : ℚ) < (calculate_interquartile_range data).1 →
        submit_analysis data count =
          some (.withinIQR (calculate_interquartile_range data).1
            (calculate_interquartile_range data).2.1)) ∧
      ((calculate_interquartile_range data).2.1 < (count : ℚ) →
        submit_analysis data count =
          some (.withinIQR (calculate_interquartile_range data).1
            (calculate_interquartile_range data).2.1))) ∧
    (¬ calculate_coefficient_of_variation data > 0.2 →
      ∃ m, mostCommon1 data = some m ∧
        submit_analysis data count =
          some (if count = m then .modeMatch m else .modeMismatch m)) := by
  have hlen : 0 < data.length := List.length_pos.mpr h
  constructor
  · intro hcv
    have hsub : submit_analysis data count =
        (if (count : ℚ) < (calculate_interquartile_range data).1
         then some (.belowQ1 (calculate_interquartile_range data).1)
         else some (.withinIQR (calculate_interquartile_range data).1
           (calculate_interquartile_range data).2.1)) := by
      unfold submit_analysis
      rw [if_pos hlen, if_pos hcv]
    refine ⟨?_, ?_, ?_⟩
    · rw [hsub]
      by_cases hlt : (count : ℚ) < (calculate_interquartile_range data).1
      · simp [hlt]
      · simp [hlt]
    · intro hnlt
      rw [hsub, if_neg hnlt]
    · intro hgt
      have hq13 := iqr_q1_le_q3 data
      have hnlt : ¬ (count : ℚ) < (calculate_interquartile_range data).1 := by
        intro hlt
        linarith
      rw [hsub, if_neg hnlt]
  · intro hcv
    obtain ⟨m, _, hmc⟩ := mostCommon1_find data h
    refine ⟨m, hmc, ?_⟩
    have hcfd : check_frequency_distribution data count = some (decide (count = m), m) := by
      unfold check_frequency_distribution
      rw [hmc]
      rfl
    unfold submit_analysis
    rw [if_pos hlen, if_neg hcv, hcfd]
    by_cases hcm : count = m <;> simp [hcm]

/-- Witness for C5: a high-variation sample whose new count lies above Q3
(reported as within the IQR), and a zero-variation sample hitting the
mode-match branch. -/
theorem C5_variation_branches_witness :
    ([0, 0, 0, 12] : List ℤ) ≠ [] ∧
    calculate_coefficient_of_variation [0, 0, 0, 12] > 0.2 ∧
    (calculate_interquartile_range [0, 0, 0, 12]).2.1 < ((13 : ℤ) : ℚ) ∧
    submit_analysis [0, 0, 0, 12] 13 = some (.withinIQR 0 3) ∧
    ([5, 5, 5, 5] : List ℤ) ≠ [] ∧
    ¬ calculate_coefficient_of_variation [5, 5, 5, 5] > 0.2 ∧
    submit_analysis [5, 5, 5, 5] 5 = some (.modeMatch 5) := by
  have h2 : (2 : ℤ).toNat = 2 := rfl
  have hiqr : calculate_interquartile_range [0, 0, 0, 12] = (0, 3, 3) := by
    norm_num [calculate_interquartile_range, npPercentile, sortList, insertSorted, h2]
  have hcv : calculate_coefficient_of_variation [0, 0, 0, 12] = 2 := by
    have hvar : sampleVariance [0, 0, 0, 12] = 36 := by
      norm_num [sampleVariance, sumSqDev, statistics_mean]
    have hmean : statistics_mean [0, 0, 0, 12] = 3 := by norm_num [statistics_mean]
    have hstep : calculate_coefficient_of_variation [0, 0, 0, 12] = Real.sqrt 36 / 3 := by
      unfold calculate_coefficient_of_variation statistics_stdev
      rw [hvar, hmean]
      norm_num
    rw [hstep, show (36 : ℝ) = 6 ^ 2 by norm_num,
      Real.sqrt_sq (by norm_num : (0 : ℝ) ≤ 6)]
    norm_num
  have hcv5 : calculate_coefficient_of_variation [5, 5, 5, 5] = 0 := by
    have hvar : sampleVariance [5, 5, 5, 5] = 0 := by
      norm_num [sampleVariance, sumSqDev, statistics_mean]
    have hmean : statistics_mean [5, 5, 5, 5] = 5 := by norm_num [statistics_mean]
    have hstep : calculate_coefficient_of_variation [5, 5, 5, 5] = Real.sqrt 0 / 5 := by
      unfold calculate_coefficient_of_variation statistics_stdev
      rw [hvar, hmean]
      norm_num
    rw [hstep, Real.sqrt_zero]
    norm_num
  have hcvgt : calculate_coefficient_of_variation [0, 0, 0, 12] > 0.2 := by
    rw [hcv]; norm_num
  have hcvle : ¬ calculate_coefficient_of_variation [5, 5, 5, 5] > 0.2 := by
    rw [hcv5]; norm_num
  have hq3lt : (calculate_interquartile_range [0, 0, 0, 12]).2.1 < ((13 : ℤ) : ℚ) := by
    rw [hiqr]; norm_num
  obtain ⟨hq, _⟩ := C5_variation_branches [0, 0, 0, 12] 13 (by decide)
  have h1 := (hq hcvgt).2.2 hq3lt
  rw [hiqr] at h1
  obtain ⟨_, hmode⟩ := C5_variation_branches [5, 5, 5, 5] 5 (by decide)
  obtain ⟨m, hm, hsub5⟩ := hmode hcvle
  have hm5 : m = 5 := by
    have hconc : mostCommon1 [5, 5, 5, 5] = some 5 := by decide
    rw [hconc] at hm
    exact (Option.some_inj.mp hm).symm
  subst hm5
  exact ⟨by decide, hcvgt, hq3lt, h1, by decide, hcvle, by simpa using hsub5⟩

theorem processLines_all_ok (pre : List (List Char)) :
    ∀ s : Store, (∀ l ∈ pre, (parseLine l).isSome) → (processLines s pre).2 = false := by
  induction pre with
  | nil => intro s _; rfl
  | cons l pre ih =>
    intro s hok
    have hl := hok l (List.mem_cons_self l pre)
    obtain ⟨⟨d, c, k⟩, hr⟩ := Option.isSome_iff_exists.mp hl
    show (processLines s (l :: pre)).2 = false
    unfold processLines
    rw [hr]
    exact ih _ (fun x hx => hok x (List.mem_cons_of_mem l hx))

theorem processLines_append_fail (pre : List (List Char)) :
    ∀ (s : Store) (bad : List Char) (rest : List (List Char)),
      (∀ l ∈ pre, (parseLine l).isSome) → parseLine bad = none →
      processLines s (pre ++ bad :: rest) = ((processLines s pre).1, true) := by
  induction pre with
  | nil =>
    intro s bad rest _ hbad
    show processLines s (bad :: rest) = ((processLines s []).1, true)
    unfold processLines
    rw [hbad]
  | cons l pre ih =>
    intro s bad rest hok hbad
    have hl := hok l (List.mem_cons_self l pre)
    obtain ⟨⟨d, c, k⟩, hr⟩ := Option.isSome_iff_exists.mp hl
    show processLines s ((l :: pre) ++ bad :: rest) = ((processLines s (l :: pre)).1, true)
    rw [List.cons_append]
    unfold processLines
    rw [hr]
    exact ih _ bad rest (fun x hx => hok x (List.mem_cons_of_mem l hx)) hbad

/-- C1 (counterexample): loading a file whose second line is malformed
leaves the first line's record in the store — the failure signal is shown,
but the store is not reset to empty. -/
theorem C1_partial_store_counterexample :
    load_data_from_file (some ("2024-01-06,5,A\nbad\n".data)) =
      (.loadError, [(⟨2024, 1, 6⟩, [("A".data, 5)])]) ∧
    ([(⟨2024, 1, 6⟩, [("A".data, 5)])] : Store) ≠ [] := by
  constructor
  · rfl
  · decide

/-- C1 (amended): the signals are distinguishable — the file-missing dialog
appears exactly when the file is absent, the generic load-error dialog on a
malformed line; on a missing file the store is left empty, while on a
malformed line the store retains exactly the records parsed from the lines
before the first failing line (it is not reset to empty). -/
theorem C1_load_failure_signals :
    (∀ file : Option (List Char),
      (load_data_from_file file).1 = .fileNotFound ↔ file = none) ∧
    (load_data_from_file none).2 = [] ∧
    (∀ (content : List Char) (pre : List (List Char)) (bad : List Char)
        (rest : List (List Char)),
      pyLines content = pre ++ bad :: rest →
      (∀ l ∈ pre, (parseLine l).isSome) →
      parseLine bad = none →
      load_data_from_file (some content) = (.loadError, (processLines [] pre).1)) := by
  refine ⟨?_, rfl, ?_⟩
  · intro file
    cases file with
    | none => simp [load_data_from_file]
    | some content =>
      simp only [load_data_from_file]
      constructor
      · intro hsig
        exfalso
        by_cases herr : (processLines [] (pyLines content)).2 <;> simp [herr] at hsig
      · intro hcontra
        exact absurd hcontra (by simp)
  · intro content pre bad rest hsplit hok hbad
    have hred : load_data_from_file (some content) =
        (if (processLines [] (pyLines content)).2 then .loadError else .success,
          (processLines [] (pyLines content)).1) := rfl
    rw [hred, hsplit, processLines_append_fail pre [] bad rest hok hbad]
    simp

/-- Witness for C1 at a concrete two-line file whose second line is
malformed. -/
theorem C1_load_failure_signals_witness :
    pyLines ("2024-01-06,5,A\nbad\n".data) =
      ["2024-01-06,5,A".data] ++ "bad".data :: [] ∧
    (∀ l ∈ ["2024-01-06,5,A".data], (parseLine l).isSome) ∧
    parseLine ("bad".data) = none ∧
    load_data_from_file (some ("2024-01-06,5,A\nbad\n".data)) =
      (.loadError, (processLines [] ["2024-01-06,5,A".data]).1) ∧
    ((load_data_from_file (some ("2024-01-06,5,A\nbad\n".data))).1 = .fileNotFound ↔
      (some ("2024-01-06,5,A\nbad\n".data) : Option (List Char)) = none) := by
  have h1 : pyLines ("2024-01-06,5,A\nbad\n".data) =
      ["2024-01-06,5,A".data] ++ "bad".data :: [] := by rfl
  have h2 : ∀ l ∈ ["2024-01-06,5,A".data], (parseLine l).isSome := by decide
  have h3 : parseLine ("bad".data) = none := by rfl
  exact ⟨h1, h2, h3,
    C1_load_failure_signals.2.2 _ _ _ _ h1 h2 h3,
    C1_load_failure_signals.1 _⟩

theorem isDigitChar_toNat {c : Char} (h : isDigitChar c = true) :
    48 ≤ c.toNat ∧ c.toNat ≤ 57 := by
  simpa [isDigitChar, Bool.and_eq_true, decide_eq_true_eq] using h

theorem natToCharsAux_irrel : ∀ (f1 f2 n : ℕ), n < f1 → n < f2 →
    natToCharsAux f1 n = natToCharsAux f2 n := by
  intro f1
  induction f1 with
  | zero => intro f2 n h1 _; omega
  | succ f1 ih =>
    intro f2 n h1 h2
    cases f2 with
    | zero => omega
    | succ f2 =>
      show (if n < 10 then [digitChar n] else natToCharsAux f1 (n / 10) ++ [digitChar (n % 10)]) =
        (if n < 10 then [digitChar n] else natToCharsAux f2 (n / 10) ++ [digitChar (n % 10)])
      by_cases h : n < 10
      · rw [if_pos h, if_pos h]
      · rw [if_neg h, if_neg h, ih f2 (n / 10) (by omega) (by omega)]

theorem natToChars_eq (n : ℕ) : natToChars n =
    if n < 10 then [digitChar n] else natToChars (n / 10) ++ [digitChar (n % 10)] := by
  show natToCharsAux (n + 1) n = _
  have hstep : natToCharsAux (n + 1) n =
      if n < 10 then [digitChar n] else natToCharsAux n (n / 10) ++ [digitChar (n % 10)] := rfl
  rw [hstep]
  by_cases h : n < 10
  · rw [if_pos h, if_pos h]
  · rw [if_neg h, if_neg h]
    unfold natToChars
    rw [natToCharsAux_irrel n (n / 10 + 1) (n / 10) (by omega) (by omega)]

theorem digit_ne_comma {c : Char} (h : isDigitChar c = true) : c ≠ ',' := by
  intro hc
  subst hc
  simp [isDigitChar] at h

theorem digit_ne_dash {c : Char} (h : isDigitChar c = true) : c ≠ '-' := by
  intro hc
  subst hc
  simp [isDigitChar] at h

theorem digit_ne_nl {c : Char} (h : isDigitChar c = true) : c ≠ '\n' := by
  intro hc
  subst hc
  simp [isDigitChar] at h

theorem digit_ne_cr {c : Char} (h : isDigitChar c = true) : c ≠ '\r' := by
  intro hc
  subst hc
  simp [isDigitChar] at h

theorem digit_not_space {c : Char} (h : isDigitChar c = true) : pyIsSpace c = false := by
  obtain ⟨h1, h2⟩ := isDigitChar_toNat h
  simp only [pyIsSpace, Bool.or_eq_false_iff, decide_eq_false_iff_not]
  omega

theorem digitChar_is_digit (n : ℕ) (h : n < 10) : isDigitChar (digitChar n) = true := by
  interval_cases n <;> decide

theorem charVal_digitChar (n : ℕ) (h : n < 10) : charVal (digitChar n) = n := by
  interval_cases n <;> decide

theorem natToChars_all_digits (n : ℕ) : ∀ c ∈ natToChars n, isDigitChar c = true := by
  induction n using Nat.strong_induction_on with
  | _ n ih =>
    intro c hc
    rw [natToChars_eq] at hc
    by_cases h : n < 10
    · rw [if_pos h] at hc
      simp only [List.mem_singleton] at hc
      subst hc
      exact digitChar_is_digit n h
    · rw [if_neg h] at hc
      rcases List.mem_append.mp hc with h1 | h1
      · exact ih (n / 10) (Nat.div_lt_self (by omega) (by omega)) c h1
      · simp only [List.mem_singleton] at h1
        subst h1
        exact digitChar_is_digit _ (Nat.mod_lt _ (by omega))

theorem natToChars_ne_nil (n : ℕ) : natToChars n ≠ [] := by
  rw [natToChars_eq]
  by_cases h : n < 10
  · rw [if_pos h]
    simp
  · rw [if_neg h]
    simp

theorem padZero_all_digits (w : ℕ) (n : ℕ) :
    ∀ c ∈ padZero w (natToChars n), isDigitChar c = true := by
  intro c hc
  rcases List.mem_append.mp hc with h1 | h1
  · have : c = '0' := List.eq_of_mem_replicate h1
    subst this
    decide
  · exact natToChars_all_digits n c h1

theorem digitsToNat_append (l1 l2 : List Char) :
    digitsToNat (l1 ++ l2) =
      l2.foldl (fun a c => a * 10 + charVal c) (digitsToNat l1) := by
  simp [digitsToNat, List.foldl_append]

theorem digitsToNat_natToChars (n : ℕ) : digitsToNat (natToChars n) = n := by
  induction n using Nat.strong_induction_on with
  | _ n ih =>
    rw [natToChars_eq]
    by_cases h : n < 10
    · rw [if_pos h]
      simp only [digitsToNat, List.foldl_cons, List.foldl_nil]
      rw [Nat.zero_mul, Nat.zero_add, charVal_digitChar n h]
    · rw [if_neg h]
      rw [digitsToNat_append, ih (n / 10) (Nat.div_lt_self (by omega) (by omega))]
      simp only [List.foldl_cons, List.foldl_nil]
      rw [charVal_digitChar _ (Nat.mod_lt _ (by omega))]
      omega

theorem digitsToNat_replicate_zero (m : ℕ) (l : List Char) :
    digitsToNat (List.replicate m '0' ++ l) = digitsToNat l := by
  induction m with
  | zero => simp
  | succ m ih =>
    rw [List.replicate_succ, List.cons_append]
    show digitsToNat ('0' :: (List.replicate m '0' ++ l)) = digitsToNat l
    have : digitsToNat ('0' :: (List.replicate m '0' ++ l)) =
        (List.replicate m '0' ++ l).foldl (fun a c => a * 10 + charVal c) (0 * 10 + charVal '0') := by
      simp [digitsToNat]
    rw [this]
    have hz : 0 * 10 + charVal '0' = 0 := by decide
    rw [hz]
    exact ih

theorem digitsToNat_padZero (w n : ℕ) : digitsToNat (padZero w (natToChars n)) = n := by
  unfold padZero
  rw [digitsToNat_replicate_zero, digitsToNat_natToChars]

theorem natToChars_length_le (k : ℕ) : ∀ n, n < 10 ^ k → 1 ≤ k → (natToChars n).length ≤ k := by
  induction k with
  | zero => intro n _ h1; omega
  | succ k ih =>
    intro n hn _
    rw [natToChars_eq]
    by_cases h : n < 10
    · rw [if_pos h]
      simp
    · rw [if_neg h]
      rw [List.length_append]
      have hk : 1 ≤ k := by
        by_contra hk0
        have : k = 0 := by omega
        subst this
        simp at hn
        omega
      have : (natToChars (n / 10)).length ≤ k := by
        apply ih
        · exact Nat.div_lt_of_lt_mul (by rw [pow_succ] at hn; omega)
        · exact hk
      simp only [List.length_singleton]
      omega

theorem padZero_length (w : ℕ) (l : List Char) (h : l.length ≤ w) :
    (padZero w l).length = w := by
  unfold padZero
  rw [List.length_append, List.length_replicate]
  omega

theorem natToChars_length_ge : ∀ (k n : ℕ), 10 ^ k ≤ n → k + 1 ≤ (natToChars n).length := by
  intro k
  induction k with
  | zero =>
    intro n _
    have hne := natToChars_ne_nil n
    have : (natToChars n).length ≠ 0 := fun h0 => hne (List.length_eq_zero.mp h0)
    omega
  | succ k ih =>
    intro n hn
    have h10 : ¬ n < 10 := by
      have hpow : (10 : ℕ) ≤ 10 ^ (k + 1) := by
        calc (10 : ℕ) = 10 ^ 1 := (pow_one 10).symm
          _ ≤ 10 ^ (k + 1) := Nat.pow_le_pow_right (by omega) (by omega)
      omega
    rw [natToChars_eq, if_neg h10, List.length_append]
    have hdiv : 10 ^ k ≤ n / 10 := by
      rw [Nat.le_div_iff_mul_le (by omega)]
      calc 10 ^ k * 10 = 10 ^ (k + 1) := by ring
        _ ≤ n := hn
    have hlen := ih (n / 10) hdiv
    simp only [List.length_singleton]
    omega

theorem splitOnChar_cons (sep c : Char) (cs : List Char) :
    splitOnChar sep (c :: cs) =
      (match splitOnChar sep cs with
       | [] => [[]]
       | r :: rs => if c = sep then [] :: r :: rs else (c :: r) :: rs) := rfl

theorem splitOnChar_ne_nil (sep : Char) : ∀ l : List Char, splitOnChar sep l ≠ [] := by
  intro l
  induction l with
  | nil => simp [splitOnChar]
  | cons c cs ih =>
    rw [splitOnChar_cons]
    cases h : splitOnChar sep cs with
    | nil => simp
    | cons r rs =>
      by_cases hc : c = sep <;> simp [hc]

theorem splitOnChar_no_sep (sep : Char) : ∀ l : List Char, sep ∉ l →
    splitOnChar sep l = [l] := by
  intro l
  induction l with
  | nil => intro _; rfl
  | cons c cs ih =>
    intro h
    have hc : ¬ c = sep := fun hc => h (hc ▸ List.mem_cons_self c cs)
    have hcs : sep ∉ cs := fun hm => h (List.mem_cons_of_mem c hm)
    rw [splitOnChar_cons, ih hcs]
    simp [hc]

theorem splitOnChar_append_sep (sep : Char) : ∀ (a b : List Char), sep ∉ a →
    splitOnChar sep (a ++ sep :: b) = a :: splitOnChar sep b := by
  intro a
  induction a with
  | nil =>
    intro b _
    show splitOnChar sep (sep :: b) = [] :: splitOnChar sep b
    rw [splitOnChar_cons]
    cases h : splitOnChar sep b with
    | nil => exact absurd h (splitOnChar_ne_nil sep b)
    | cons r rs => simp
  | cons c cs ih =>
    intro b h
    have hc : ¬ c = sep := fun hc => h (hc ▸ List.mem_cons_self c cs)
    have hcs : sep ∉ cs := fun hm => h (List.mem_cons_of_mem c hm)
    rw [List.cons_append, splitOnChar_cons, ih b hcs]
    simp [hc]

theorem pyStrip_noop (l : List Char)
    (h1 : ∀ c, l.head? = some c → pyIsSpace c = false)
    (h2 : ∀ c, l.getLast? = some c → pyIsSpace c = false) :
    pyStrip l = l := by
  unfold pyStrip
  have e1 : l.dropWhile pyIsSpace = l := by
    cases l with
    | nil => rfl
    | cons a t =>
      rw [List.dropWhile_cons, if_neg]
      simp [h1 a rfl]
  rw [e1]
  have e2 : l.reverse.dropWhile pyIsSpace = l.reverse := by
    cases hrev : l.reverse with
    | nil => rfl
    | cons a t =>
      have ha : l.getLast? = some a := by
        rw [← List.head?_reverse, hrev]
        rfl
      rw [List.dropWhile_cons, if_neg]
      simp [h2 a ha]
  rw [e2, List.reverse_reverse]

theorem parseDate_formatDate (d : PyDate) (hv : d.valid) (hy : 1000 ≤ d.year) :
    parseDate (formatDate d) = some d := by
  obtain ⟨hy1, hy2, hm1, hm2, hd1, hd2⟩ := hv
  have hylen : (natToChars d.year).length = 4 := by
    have hle : (natToChars d.year).length ≤ 4 :=
      natToChars_length_le 4 d.year (by omega) (by omega)
    have hge : 3 + 1 ≤ (natToChars d.year).length :=
      natToChars_length_ge 3 d.year (by omega)
    omega
  have hmlen : (natToChars d.month).length ≤ 2 :=
    natToChars_length_le 2 d.month (by omega) (by omega)
  have hdmle : d.day ≤ 31 := by
    have : daysInMonth d.year d.month ≤ 31 := by
      unfold daysInMonth
      by_cases h2 : d.month = 2 ∧ isLeapYear d.year
      · rw [if_pos h2]; omega
      · rw [if_neg h2]
        interval_cases m : d.month <;> simp [daysInMonthList]
    omega
  have hdlen : (natToChars d.day).length ≤ 2 :=
    natToChars_length_le 2 d.day (by omega) (by omega)
  have hnodash1 : '-' ∉ natToChars d.year := by
    intro hm
    exact absurd (natToChars_all_digits d.year '-' hm) (by decide)
  have hnodash2 : '-' ∉ padZero 2 (natToChars d.month) := by
    intro hm
    exact absurd (padZero_all_digits 2 d.month '-' hm) (by decide)
  have hnodash3 : '-' ∉ padZero 2 (natToChars d.day) := by
    intro hm
    exact absurd (padZero_all_digits 2 d.day '-' hm) (by decide)
  have hsplit : splitOnChar '-' (formatDate d) =
      [natToChars d.year, padZero 2 (natToChars d.month),
        padZero 2 (natToChars d.day)] := by
    unfold formatDate
    rw [splitOnChar_append_sep _ _ _ hnodash1, splitOnChar_append_sep _ _ _ hnodash2,
      splitOnChar_no_sep _ _ hnodash3]
  unfold parseDate
  rw [hsplit]
  dsimp only
  have hcond : (natToChars d.year).length = 4 ∧
      (natToChars d.year).all isDigitChar = true ∧
      1 ≤ (padZero 2 (natToChars d.month)).length ∧
      (padZero 2 (natToChars d.month)).length ≤ 2 ∧
      (padZero 2 (natToChars d.month)).all isDigitChar = true ∧
      1 ≤ (padZero 2 (natToChars d.day)).length ∧
      (padZero 2 (natToChars d.day)).length ≤ 2 ∧
      (padZero 2 (natToChars d.day)).all isDigitChar = true := by
    refine ⟨hylen, ?_, ?_, ?_, ?_, ?_, ?_, ?_⟩
    · rw [List.all_eq_true]
      exact natToChars_all_digits d.year
    · rw [padZero_length 2 _ hmlen]; omega
    · rw [padZero_length 2 _ hmlen]
    · rw [List.all_eq_true]
      exact padZero_all_digits 2 d.month
    · rw [padZero_length 2 _ hdlen]; omega
    · rw [padZero_length 2 _ hdlen]
    · rw [List.all_eq_true]
      exact padZero_all_digits 2 d.day
  rw [if_pos hcond]
  simp only [digitsToNat_padZero, digitsToNat_natToChars]
  rw [if_pos ⟨hy1, hm1, hm2, hd1, hd2⟩]

theorem digit_ne_plus {c : Char} (h : isDigitChar c = true) : c ≠ '+' := by
  intro hc
  subst hc
  simp [isDigitChar] at h

theorem mem_of_getLast?_eq {l : List Char} {a : Char} (h : l.getLast? = some a) : a ∈ l := by
  have hrev : l.reverse.head? = some a := by rw [List.head?_reverse, h]
  have : a ∈ l.reverse := List.mem_of_mem_head? hrev
  simpa using this

theorem pyStrip_noop_of_all (l : List Char) (h : ∀ c ∈ l, pyIsSpace c = false) :
    pyStrip l = l :=
  pyStrip_noop l (fun c hc => h c (List.mem_of_mem_head? hc))
    (fun c hc => h c (mem_of_getLast?_eq hc))

theorem parseInt_intToChars (c : ℤ) : parseInt (intToChars c) = some c := by
  have hall : ∀ ch ∈ intToChars c, pyIsSpace ch = false := by
    intro ch hch
    unfold intToChars at hch
    by_cases hc : c < 0
    · rw [if_pos hc] at hch
      rcases List.mem_cons.mp hch with h | h
      · subst h; decide
      · exact digit_not_space (natToChars_all_digits _ _ h)
    · rw [if_neg hc] at hch
      exact digit_not_space (natToChars_all_digits _ _ hch)
  have hstrip : pyStrip (intToChars c) = intToChars c := pyStrip_noop_of_all _ hall
  unfold parseInt
  rw [hstrip]
  by_cases hc : c < 0
  · have h1 : intToChars c = '-' :: natToChars c.natAbs := by
      unfold intToChars
      rw [if_pos hc]
    rw [h1]
    split
    · rename_i ds heq
      obtain ⟨rfl⟩ : natToChars c.natAbs = ds := by
        injection heq
      rw [if_pos ⟨natToChars_ne_nil _, List.all_eq_true.mpr (natToChars_all_digits _)⟩]
      rw [digitsToNat_natToChars]
      congr 1
      omega
    · rename_i ds heq
      exact absurd heq (by simp)
    · rename_i hne1 hne2
      exact absurd rfl (hne1 (natToChars c.natAbs))
  · have h1 : intToChars c = natToChars c.toNat := by
      unfold intToChars
      rw [if_neg hc]
    rw [h1]
    have hnn := natToChars_ne_nil c.toNat
    have hdig := natToChars_all_digits c.toNat
    cases he : natToChars c.toNat with
    | nil => exact absurd he hnn
    | cons d0 ds0 =>
      have hd0 : isDigitChar d0 = true := by
        apply hdig
        rw [he]
        exact List.mem_cons_self _ _
      split
      · rename_i ds heq
        exact absurd (by injection heq) (digit_ne_dash hd0)
      · rename_i ds heq
        exact absurd (by injection heq) (digit_ne_plus hd0)
      · rename_i hne1 hne2
        rw [if_pos ⟨by simp, by
          rw [List.all_eq_true]
          intro ch hch
          apply hdig
          rw [he]
          exact hch⟩]
        rw [← he, digitsToNat_natToChars]
        congr 1
        omega

theorem formatDate_chars (d : PyDate) :
    ∀ ch ∈ formatDate d, isDigitChar ch = true ∨ ch = '-' := by
  intro ch hm
  unfold formatDate at hm
  rcases List.mem_append.mp hm with h1 | h1
  · exact Or.inl (natToChars_all_digits d.year ch h1)
  · rcases List.mem_cons.mp h1 with h2 | h2
    · exact Or.inr h2
    · rcases List.mem_append.mp h2 with h3 | h3
      · exact Or.inl (padZero_all_digits 2 d.month ch h3)
      · rcases List.mem_cons.mp h3 with h4 | h4
        · exact Or.inr h4
        · exact Or.inl (padZero_all_digits 2 d.day ch h4)

theorem intToChars_chars (c : ℤ) :
    ∀ ch ∈ intToChars c, isDigitChar ch = true ∨ ch = '-' := by
  intro ch hm
  unfold intToChars at hm
  by_cases hc : c < 0
  · rw [if_pos hc] at hm
    rcases List.mem_cons.mp hm with h | h
    · exact Or.inr h
    · exact Or.inl (natToChars_all_digits _ _ h)
  · rw [if_neg hc] at hm
    exact Or.inl (natToChars_all_digits _ _ hm)

theorem digit_or_dash_ne_comma {ch : Char} (h : isDigitChar ch = true ∨ ch = '-') :
    ch ≠ ',' := by
  rcases h with h | h
  · exact digit_ne_comma h
  · subst h; decide

theorem digit_or_dash_ne_nl {ch : Char} (h : isDigitChar ch = true ∨ ch = '-') :
    ch ≠ '\n' := by
  rcases h with h | h
  · exact digit_ne_nl h
  · subst h; decide

theorem digit_or_dash_ne_cr {ch : Char} (h : isDigitChar ch = true ∨ ch = '-') :
    ch ≠ '\r' := by
  rcases h with h | h
  · exact digit_ne_cr h
  · subst h; decide

theorem formatDate_ne_nil (d : PyDate) : formatDate d ≠ [] := by
  unfold formatDate
  intro h
  exact natToChars_ne_nil d.year (List.append_eq_nil.mp h).1

theorem lineOfRecord_strip (d : PyDate) (c : ℤ) (k : DiaryName)
    (hklast : ∀ ch, k.getLast? = some ch → pyIsSpace ch = false) :
    pyStrip (lineOfRecord d c k) = lineOfRecord d c k := by
  apply pyStrip_noop
  · intro ch hch
    have hh : (lineOfRecord d c k).head? = (formatDate d).head? :=
      List.head?_append_of_ne_nil _ (formatDate_ne_nil d)
    rw [hh] at hch
    have hmem : ch ∈ formatDate d := List.mem_of_mem_head? hch
    rcases formatDate_chars d ch hmem with h | h
    · exact digit_not_space h
    · subst h; decide
  · intro ch hch
    have hl1 : (lineOfRecord d c k).getLast? = (',' :: (intToChars c ++ ',' :: k)).getLast? :=
      List.getLast?_append_of_ne_nil _ (by simp)
    rw [hl1] at hch
    cases hk : k with
    | nil =>
      subst hk
      have : (',' :: (intToChars c ++ [','])).getLast? = some ',' := by
        have : ',' :: (intToChars c ++ [',']) = (',' :: intToChars c) ++ [','] := by simp
        rw [this, List.getLast?_concat]
      rw [this] at hch
      obtain ⟨rfl⟩ : ',' = ch := by injection hch
      decide
    | cons k0 ks =>
      subst hk
      have h1 : (',' :: (intToChars c ++ ',' :: k0 :: ks)).getLast? =
          (k0 :: ks).getLast? := by
        have e : ',' :: (intToChars c ++ ',' :: k0 :: ks) =
            (',' :: intToChars c ++ [',']) ++ k0 :: ks := by simp
        rw [e]
        exact List.getLast?_append_of_ne_nil _ (by simp)
      rw [h1] at hch
      exact hklast ch hch

theorem parseLine_lineOfRecord (d : PyDate) (c : ℤ) (k : DiaryName)
    (hv : d.valid) (hy : 1000 ≤ d.year) (hkc : ',' ∉ k)
    (hklast : ∀ ch, k.getLast? = some ch → pyIsSpace ch = false) :
    parseLine (lineOfRecord d c k) = some (d, c, k) := by
  have hfc : ',' ∉ formatDate d := by
    intro hm
    exact digit_or_dash_ne_comma (formatDate_chars d ',' hm) rfl
  have hic : ',' ∉ intToChars c := by
    intro hm
    exact digit_or_dash_ne_comma (intToChars_chars c ',' hm) rfl
  have hsplit : splitOnChar ',' (lineOfRecord d c k) =
      [formatDate d, intToChars c, k] := by
    unfold lineOfRecord
    rw [splitOnChar_append_sep _ _ _ hfc, splitOnChar_append_sep _ _ _ hic,
      splitOnChar_no_sep _ _ hkc]
  unfold parseLine
  rw [lineOfRecord_strip d c k hklast, hsplit]
  dsimp only
  rw [parseDate_formatDate d hv hy, parseInt_intToChars c]

theorem translateNewlines_noop : ∀ l : List Char, '\r' ∉ l → translateNewlines l = l := by
  intro l
  induction l with
  | nil => intro _; rfl
  | cons c rest ih =>
    intro h
    have hc : ¬ c = '\r' := fun hc => h (hc ▸ List.mem_cons_self c rest)
    have hrest : '\r' ∉ rest := fun hm => h (List.mem_cons_of_mem c hm)
    cases rest with
    | nil =>
      show translateNewlines [c] = [c]
      simp [translateNewlines, hc]
    | cons c2 r2 =>
      show translateNewlines (c :: c2 :: r2) = c :: c2 :: r2
      simp only [translateNewlines, if_neg hc]
      rw [ih hrest]

theorem mem_foldr_join : ∀ (L : List (List Char)) (c : Char),
    c ∈ L.foldr (fun l acc => l ++ '\n' :: acc) [] → (∃ l ∈ L, c ∈ l) ∨ c = '\n' := by
  intro L
  induction L with
  | nil => intro c hc; simp at hc
  | cons l L ih =>
    intro c hc
    simp only [List.foldr_cons] at hc
    rcases List.mem_append.mp hc with h1 | h1
    · exact Or.inl ⟨l, List.mem_cons_self l L, h1⟩
    · rcases List.mem_cons.mp h1 with h2 | h2
      · exact Or.inr h2
      · rcases ih c h2 with ⟨l', hl', hc'⟩ | h3
        · exact Or.inl ⟨l', List.mem_cons_of_mem l hl', hc'⟩
        · exact Or.inr h3

theorem splitOnChar_join (L : List (List Char)) (h : ∀ l ∈ L, '\n' ∉ l) :
    splitOnChar '\n' (L.foldr (fun l acc => l ++ '\n' :: acc) []) = L ++ [[]] := by
  induction L with
  | nil => rfl
  | cons l L ih =>
    simp only [List.foldr_cons]
    rw [splitOnChar_append_sep _ _ _ (h l (List.mem_cons_self l L)),
      ih (fun x hx => h x (List.mem_cons_of_mem l hx))]
    rfl

theorem storeLines_chars (s : Store)
    (hdiaries : ∀ g ∈ s, ∀ e ∈ g.2, '\n' ∉ e.1 ∧ '\r' ∉ e.1) :
    ∀ l ∈ storeLines s, '\n' ∉ l ∧ '\r' ∉ l := by
  intro l hl
  unfold storeLines at hl
  rw [List.mem_flatten] at hl
  obtain ⟨ls, hls, hlin⟩ := hl
  rw [List.mem_map] at hls
  obtain ⟨g, hg, rfl⟩ := hls
  rw [List.mem_map] at hlin
  obtain ⟨e, he, rfl⟩ := hlin
  constructor
  · intro hm
    unfold lineOfRecord at hm
    rcases List.mem_append.mp hm with h1 | h1
    · exact digit_or_dash_ne_nl (formatDate_chars _ _ h1) rfl
    · rcases List.mem_cons.mp h1 with h2 | h2
      · exact absurd h2 (by decide)
      · rcases List.mem_append.mp h2 with h3 | h3
        · exact digit_or_dash_ne_nl (intToChars_chars _ _ h3) rfl
        · rcases List.mem_cons.mp h3 with h4 | h4
          · exact absurd h4 (by decide)
          · exact (hdiaries g hg e he).1 h4
  · intro hm
    unfold lineOfRecord at hm
    rcases List.mem_append.mp hm with h1 | h1
    · exact digit_or_dash_ne_cr (formatDate_chars _ _ h1) rfl
    · rcases List.mem_cons.mp h1 with h2 | h2
      · exact absurd h2 (by decide)
      · rcases List.mem_append.mp h2 with h3 | h3
        · exact digit_or_dash_ne_cr (intToChars_chars _ _ h3) rfl
        · rcases List.mem_cons.mp h3 with h4 | h4
          · exact absurd h4 (by decide)
          · exact (hdiaries g hg e he).2 h4

theorem pyLines_save (s : Store)
    (hlines : ∀ l ∈ storeLines s, '\n' ∉ l ∧ '\r' ∉ l) :
    pyLines (save_to_file s) = storeLines s := by
  have hnor : '\r' ∉ save_to_file s := by
    intro hm
    rcases mem_foldr_join _ _ hm with ⟨l, hl, hcl⟩ | h
    · exact (hlines l hl).2 hcl
    · exact absurd h (by decide)
  have hjoin : splitOnChar '\n' (translateNewlines (save_to_file s)) = storeLines s ++ [[]] := by
    rw [translateNewlines_noop _ hnor]
    exact splitOnChar_join _ (fun l hl => (hlines l hl).1)
  show (match (splitOnChar '\n' (translateNewlines (save_to_file s))).getLast? with
    | some [] => (splitOnChar '\n' (translateNewlines (save_to_file s))).dropLast
    | _ => splitOnChar '\n' (translateNewlines (save_to_file s))) = storeLines s
  rw [hjoin, List.getLast?_concat]
  exact List.dropLast_concat

theorem upsertStore_not_mem : ∀ (acc : Store) (d : PyDate) (k : DiaryName) (c : ℤ),
    d ∉ acc.map Prod.fst → upsertStore acc d k c = acc ++ [(d, [(k, c)])] := by
  intro acc
  induction acc with
  | nil => intro d k c _; rfl
  | cons g rest ih =>
    intro d k c h
    obtain ⟨d0, sub⟩ := g
    have hd0 : ¬ d0 = d := by
      intro hd
      exact h (by simp [hd])
    show upsertStore ((d0, sub) :: rest) d k c = (d0, sub) :: rest ++ [(d, [(k, c)])]
    unfold upsertStore
    rw [if_neg hd0, ih d k c (fun hm => h (by simp [List.mem_map] at hm ⊢; tauto))]
    rfl

theorem upsertDiary_not_mem : ∀ (sub : List (DiaryName × ℤ)) (k : DiaryName) (c : ℤ),
    k ∉ sub.map Prod.fst → upsertDiary sub k c = sub ++ [(k, c)] := by
  intro sub
  induction sub with
  | nil => intro k c _; rfl
  | cons e rest ih =>
    intro k c h
    obtain ⟨k0, c0⟩ := e
    have hk0 : ¬ k0 = k := by
      intro hk
      exact h (by simp [hk])
    show upsertDiary ((k0, c0) :: rest) k c = (k0, c0) :: rest ++ [(k, c)]
    unfold upsertDiary
    rw [if_neg hk0, ih k c (fun hm => h (by simp [List.mem_map] at hm ⊢; tauto))]
    rfl

theorem upsertStore_last : ∀ (acc : Store) (d : PyDate) (sub : List (DiaryName × ℤ))
    (k : DiaryName) (c : ℤ), d ∉ acc.map Prod.fst →
    upsertStore (acc ++ [(d, sub)]) d k c = acc ++ [(d, upsertDiary sub k c)] := by
  intro acc
  induction acc with
  | nil =>
    intro d sub k c _
    show upsertStore [(d, sub)] d k c = [(d, upsertDiary sub k c)]
    unfold upsertStore
    rw [if_pos rfl]
  | cons g rest ih =>
    intro d sub k c h
    obtain ⟨d0, sub0⟩ := g
    have hd0 : ¬ d0 = d := by
      intro hd
      exact h (by simp [hd])
    show upsertStore ((d0, sub0) :: (rest ++ [(d, sub)])) d k c =
      (d0, sub0) :: (rest ++ [(d, upsertDiary sub k c)])
    unfold upsertStore
    rw [if_neg hd0, ih d sub k c (fun hm => h (by simp [List.mem_map] at hm ⊢; tauto))]

theorem foldl_upsert_group : ∀ (sub₂ sub₁ : List (DiaryName × ℤ)) (acc : Store) (d : PyDate),
    d ∉ acc.map Prod.fst → ((sub₁ ++ sub₂).map Prod.fst).Nodup →
    (sub₂.map (fun e => (d, e.2, e.1))).foldl
      (fun a r => upsertStore a r.1 r.2.2 r.2.1) (acc ++ [(d, sub₁)]) =
      acc ++ [(d, sub₁ ++ sub₂)] := by
  intro sub₂
  induction sub₂ with
  | nil => intro sub₁ acc d _ _; simp
  | cons e sub₂ ih =>
    intro sub₁ acc d hd hnd
    simp only [List.map_cons, List.foldl_cons]
    have hstep : upsertStore (acc ++ [(d, sub₁)]) d e.1 e.2 = acc ++ [(d, sub₁ ++ [e])] := by
      rw [upsertStore_last acc d sub₁ e.1 e.2 hd]
      have hkey : e.1 ∉ sub₁.map Prod.fst := by
        intro hm
        have heq : ((sub₁ ++ e :: sub₂).map Prod.fst) =
            sub₁.map Prod.fst ++ e.1 :: sub₂.map Prod.fst := by simp
        rw [heq] at hnd
        have hdisj := (List.nodup_append.mp hnd).2.2
        exact hdisj hm (List.mem_cons_self _ _)
      rw [upsertDiary_not_mem sub₁ e.1 e.2 hkey]
    rw [hstep]
    have hnd' : (((sub₁ ++ [e]) ++ sub₂).map Prod.fst).Nodup := by
      rw [List.append_assoc]
      simpa using hnd
    rw [ih (sub₁ ++ [e]) acc d hd hnd']
    simp

theorem foldl_upsert_records : ∀ (s : Store) (acc : Store),
    (∀ g ∈ s, g.1 ∉ acc.map Prod.fst) →
    (s.map Prod.fst).Nodup →
    (∀ g ∈ s, g.2 ≠ [] ∧ (g.2.map Prod.fst).Nodup) →
    ((s.map (fun g => g.2.map (fun e => (g.1, e.2, e.1)))).flatten).foldl
      (fun a r => upsertStore a r.1 r.2.2 r.2.1) acc = acc ++ s := by
  intro s
  induction s with
  | nil => intro acc _ _ _; simp
  | cons g rest ih =>
    intro acc hfresh hnd hsubs
    obtain ⟨d, sub⟩ := g
    simp only [List.map_cons, List.flatten_cons, List.foldl_append]
    obtain ⟨hsubne, hsubnd⟩ := hsubs (d, sub) (List.mem_cons_self _ _)
    have hdacc : d ∉ acc.map Prod.fst := hfresh (d, sub) (List.mem_cons_self _ _)
    have hgroup : (sub.map (fun e => (d, e.2, e.1))).foldl
        (fun a r => upsertStore a r.1 r.2.2 r.2.1) acc = acc ++ [(d, sub)] := by
      cases sub with
      | nil => exact absurd rfl hsubne
      | cons e0 sub' =>
        simp only [List.map_cons, List.foldl_cons]
        have hfirst : upsertStore acc d e0.1 e0.2 = acc ++ [(d, [(e0.1, e0.2)])] :=
          upsertStore_not_mem acc d e0.1 e0.2 hdacc
        rw [hfirst]
        have : (acc ++ [(d, [(e0.1, e0.2)])]) = acc ++ [(d, [e0])] := by simp
        rw [this, foldl_upsert_group sub' [e0] acc d hdacc (by simpa using hsubnd)]
        simp
    rw [hgroup]
    rw [ih (acc ++ [(d, sub)])
      (by
        intro g' hg'
        rw [List.map_append, List.mem_append]
        push_neg
        constructor
        · exact hfresh g' (List.mem_cons_of_mem _ hg')
        · simp only [List.map_cons, List.map_nil, List.mem_singleton]
          intro hd'
          simp only [List.map_cons, List.nodup_cons] at hnd
          exact hnd.1 (hd' ▸ List.mem_map.mpr ⟨g', hg', rfl⟩))
      (by
        simp only [List.map_cons, List.nodup_cons] at hnd
        exact hnd.2)
      (fun g' hg' => hsubs g' (List.mem_cons_of_mem _ hg'))]
    simp

theorem processLines_map : ∀ (records : List (PyDate × ℤ × DiaryName))
    (lines : List (List Char)) (s : Store),
    lines.map parseLine = records.map some →
    processLines s lines =
      (records.foldl (fun a r => upsertStore a r.1 r.2.2 r.2.1) s, false) := by
  intro records
  induction records with
  | nil =>
    intro lines s h
    have hl : lines = [] := by
      cases lines with
      | nil => rfl
      | cons l ls => simp at h
    subst hl
    rfl
  | cons r rs ih =>
    intro lines s h
    obtain ⟨d, c, k⟩ := r
    cases lines with
    | nil => simp at h
    | cons l ls =>
      simp only [List.map_cons, List.cons.injEq] at h
      obtain ⟨hl, hls⟩ := h
      show processLines s (l :: ls) = _
      unfold processLines
      rw [hl]
      simp only [List.foldl_cons]
      exact ih ls (upsertStore s d k c) hls

theorem storeLines_parse (s : Store)
    (hdates : ∀ g ∈ s, g.1.valid ∧ 1000 ≤ g.1.year)
    (hdiaries : ∀ g ∈ s, ∀ e ∈ g.2, ',' ∉ e.1 ∧
      (∀ ch, e.1.getLast? = some ch → pyIsSpace ch = false)) :
    (storeLines s).map parseLine =
      ((s.map (fun g => g.2.map (fun e => (g.1, e.2, e.1)))).flatten).map some := by
  unfold storeLines
  rw [List.map_flatten, List.map_flatten, List.map_map, List.map_map]
  congr 1
  apply List.map_congr_left
  intro g hg
  simp only [Function.comp]
  rw [List.map_map, List.map_map]
  apply List.map_congr_left
  intro e he
  simp only [Function.comp]
  exact parseLine_lineOfRecord g.1 e.2 e.1 (hdates g hg).1 (hdates g hg).2
    (hdiaries g hg e he).1 (hdiaries g hg e he).2

theorem last_not_space_of {k : DiaryName} {c0 : Char} (h0 : k.getLast? = some c0)
    (hp : pyIsSpace c0 = false) : ∀ ch, k.getLast? = some ch → pyIsSpace ch = false := by
  intro ch hch
  rw [h0] at hch
  injection hch with h
  rw [← h]
  exact hp

/-- C4 (counterexample): a non-empty store with a diary name that contains
no comma but ends in a space does not survive the round trip —
`line.strip()` during load removes the trailing space, so the reloaded
mapping holds diary "A" where the original held "A ".  The same happens
for any trailing character of `str.strip()`'s Unicode whitespace set, such
as the information separator U+001C. -/
theorem C4_roundtrip_counterexample :
    load_data_from_file (some (save_to_file [(⟨2024, 1, 6⟩, [(['A', ' '], 5)])])) =
      (.success, [(⟨2024, 1, 6⟩, [(['A'], 5)])]) ∧
    ',' ∉ (['A', ' '] : List Char) ∧
    lookupKey [(['A'], (5 : ℤ))] ['A', ' '] = none ∧
    lookupKey [(['A', ' '], (5 : ℤ))] ['A', ' '] = some 5 ∧
    load_data_from_file (some (save_to_file [(⟨2024, 1, 6⟩, [(['A', '\x1c'], 5)])])) =
      (.success, [(⟨2024, 1, 6⟩, [(['A'], 5)])]) := by
  refine ⟨by decide, by decide, by decide, by decide, by decide⟩

/-- C4 (amended): for every non-empty well-formed store whose dates are
valid calendar dates with four-digit years (1000-9999 — glibc's `%Y` is
unpadded, so shorter years produce a field `strptime` rejects) and whose
diary names contain no comma, no newline and no carriage return and do not
end in a character `str.strip()` removes, saving and reloading reproduces
exactly the same store, hence the same (date, diary) -> count mapping. -/
theorem C4_roundtrip (s : Store)
    (_hne : s ≠ [])
    (hdates : ∀ g ∈ s, g.1.valid ∧ 1000 ≤ g.1.year)
    (hnodup : (s.map Prod.fst).Nodup)
    (hsubs : ∀ g ∈ s, g.2 ≠ [] ∧ (g.2.map Prod.fst).Nodup)
    (hdiaries : ∀ g ∈ s, ∀ e ∈ g.2, ',' ∉ e.1 ∧ '\n' ∉ e.1 ∧ '\r' ∉ e.1 ∧
      (∀ ch, e.1.getLast? = some ch → pyIsSpace ch = false)) :
    load_data_from_file (some (save_to_file s)) = (.success, s) := by
  have hlines := storeLines_chars s
    (fun g hg e he => ⟨(hdiaries g hg e he).2.1, (hdiaries g hg e he).2.2.1⟩)
  have hpy : pyLines (save_to_file s) = storeLines s := pyLines_save s hlines
  have hparse := storeLines_parse s hdates
    (fun g hg e he => ⟨(hdiaries g hg e he).1, (hdiaries g hg e he).2.2.2⟩)
  have hproc : processLines [] (storeLines s) =
      (((s.map (fun g => g.2.map (fun e => (g.1, e.2, e.1)))).flatten).foldl
        (fun a r => upsertStore a r.1 r.2.2 r.2.1) [], false) :=
    processLines_map _ _ _ hparse
  have hfold := foldl_upsert_records s [] (by simp) hnodup hsubs
  have hred : load_data_from_file (some (save_to_file s)) =
      (if (processLines [] (pyLines (save_to_file s))).2 then .loadError else .success,
        (processLines [] (pyLines (save_to_file s))).1) := rfl
  rw [hred, hpy, hproc]
  rw [hfold]
  simp

/-- Witness for C4 at a concrete two-date store with two diaries and a
negative count. -/
theorem C4_roundtrip_witness :
    (([(⟨2024, 1, 6⟩, [(['A'], 5), (['B'], -3)]), (⟨2024, 1, 7⟩, [(['A'], 2)])] : Store) ≠ []) ∧
    load_data_from_file (some (save_to_file
      [(⟨2024, 1, 6⟩, [(['A'], 5), (['B'], -3)]), (⟨2024, 1, 7⟩, [(['A'], 2)])])) =
      (.success,
        [(⟨2024, 1, 6⟩, [(['A'], 5), (['B'], -3)]), (⟨2024, 1, 7⟩, [(['A'], 2)])]) := by
  refine ⟨by decide, ?_⟩
  apply C4_roundtrip
  · decide
  · decide
  · decide
  · decide
  · intro g hg e he
    simp only [List.mem_cons, List.not_mem_nil, or_false] at hg
    rcases hg with rfl | rfl
    · simp only [List.mem_cons, List.not_mem_nil, or_false] at he
      rcases he with rfl | rfl
      · exact ⟨by decide, by decide, by decide, last_not_space_of rfl (by decide)⟩
      · exact ⟨by decide, by decide, by decide, last_not_space_of rfl (by decide)⟩
    · simp only [List.mem_cons, List.not_mem_nil, or_false] at he
      rcases he with rfl
      exact ⟨by decide, by decide, by decide, last_not_space_of rfl (by decide)⟩
